
import Mathlib

/-!
# ComponentPath: lexical path normalisation

A shallow embedding of `OpenSim/Common/ComponentPath.cpp`.

A `std::string` is a `List Char` (its `size()` characters; embedded NUL
characters are allowed, as in C++).  A `char*` into the string is the offset
of the pointee from `&path[0]`.  Reading the buffer at offset `size()` gives
the terminator `'\0'`.  `size_t` values are natural numbers reduced modulo
`2 ^ 64`.  The `std::cerr` trace lines of the source print and do not change
the state, so they have no counterpart here.
-/

namespace ComponentPath

/-- The `ComponentPath::separator` constant. -/
def separator : Char := '/'

/-- The file-static table `invalidCharGlyphs` that `isValid` scans. -/
def invalidCharGlyphs : List Char := ['\\', '*', '+', ' ', '\t', '\n']

/-- The documented constant `ComponentPath::invalidChars`. -/
def invalidChars : List Char := ['\\', '/', '*', '+', ' ', '\t', '\n']

/-- The static function `isValid`: false as soon as one glyph of the table occurs in `path`. -/
def isValid (path : List Char) : Bool :=
  invalidCharGlyphs.all fun c => !(path.contains c)

/-- The outcome of `ComponentPath::normalize`: the returned string, one of the
two `std::runtime_error`s (with the path the message is built from), or the
loop budget of the embedding running out (no source counterpart). -/
inductive Result where
  | ok (path : List Char)
  | invalidCharacters (path : List Char)
  | aboveRoot (path : List Char)
  | fuelExhausted
  deriving DecidableEq, Repr

/-- The terminator, `'\0'`. -/
def nul : Char := Char.ofNat 0

/-- Read `path.c_str()[i]`: the character at offset `i`, the terminator at offset
`size()`.  Offsets past the terminator lie outside the string; the embedding
reads them as NUL. -/
def charAt (path : List Char) (i : Nat) : Char := path.getD i nul

/-- Conversion of a (possibly negative) integer to `size_t`. -/
def toSizeT (z : Int) : Nat := (z % 2 ^ 64).toNat

/-- The copy loop of the `shift` lambda, `for (i = 0; i < to_move; ++i) s[i] = s[i+n]`,
with `s` at offset `k`.  The embedding keeps the effect of the loop on the `size()`
characters of the string: a write at an offset past them is dropped.  Whether the loop
of the source stays inside the storage of the string is what `shiftWritesInside` tells;
where it does not, the source overwrites memory that is not the string's, and what
follows in the real program has no counterpart here. -/
def shiftCopy (k n : Nat) : (to_move : Nat) → (i : Nat) → List Char → List Char
  | 0, _, buf => buf
  | t + 1, i, buf => shiftCopy k n t (i + 1) (buf.set (k + i) (charAt buf (k + i + n)))

/-- The call `path.resize(m)`: truncate, or pad with NUL characters. -/
def resize (path : List Char) (m : Nat) : List Char :=
  if m ≤ path.length then path.take m else path ++ List.replicate (m - path.length) nul

/-- The `shift` lambda of `normalize`, applied to the pointer at offset `k`.
`path.c_str() - s` is the negative number `-k`; the subtraction from
`path.size()` is carried out in `size_t`. -/
def shift (path : List Char) (k n : Nat) : List Char :=
  let len := toSizeT ((path.length : Int) - (toSizeT (0 - (k : Int)) : Int))
  let to_move := toSizeT ((len : Int) - (n : Int))
  resize (shiftCopy k n to_move 0 path) (toSizeT ((path.length : Int) - (n : Int)))

/-- The `rfind` lambda: the offset of the last `'/'` in `[start, end)`, or
`none` for `nullptr`.  The loop `while (--end >= start)` is a recursion on `end`. -/
def rfind (path : List Char) (start : Nat) : (e : Nat) → Option Nat
  | 0 => none
  | e + 1 =>
    if start ≤ e then
      if charAt path e = '/' then some e else rfind path start e
    else none

/-- The loop `while (start[0] == '.' && start[1] == '/' && start[2] != '\0') shift(start, 2)`. -/
def stripLoop : (fuel : Nat) → List Char → (start : Nat) → Option (List Char)
  | 0, _, _ => none
  | fuel + 1, path, start =>
    if charAt path start = '.' ∧ charAt path (start + 1) = '/' ∧ charAt path (start + 2) ≠ nul then
      stripLoop fuel (shift path start 2) start
    else some path

/-- The loop `while (cur[0] == '/') shift(cur, 1)`. -/
def collapseLoop : (fuel : Nat) → List Char → (cur : Nat) → Option (List Char)
  | 0, _, _ => none
  | fuel + 1, path, cur =>
    if charAt path cur = '/' then collapseLoop fuel (shift path cur 1) cur else some path

/-- The inner loop of the main loop: skip to the next element of the input, or
to its end, combining consecutive slashes. -/
def skipLoop : (fuel : Nat) → List Char → (cur : Nat) → Option (List Char × Nat)
  | 0, _, _ => none
  | fuel + 1, path, cur =>
    if charAt path cur = nul then some (path, cur)
    else if charAt path cur = '/' then
      (collapseLoop (path.length + 1) path (cur + 1)).map fun p => (p, cur + 1)
    else skipLoop fuel path (cur + 1)

/-- The code after the main loop: drop a trailing slash unless the string is one character long. -/
def finish (path : List Char) : List Char :=
  if 1 < path.length ∧ path.getLast? = some '/' then path.dropLast else path

/-- The main loop `while (cur[0] != '\0')` of `normalize`, followed by the trailing-slash step. -/
def mainLoop : (fuel : Nat) → (start : Nat) → List Char → (cur : Nat) → Result
  | 0, _, _, _ => Result.fuelExhausted
  | fuel + 1, start, path, cur =>
    if charAt path cur = nul then Result.ok (finish path)
    else if charAt path cur = '.' ∧ (charAt path (cur + 1) = nul ∨ charAt path (cur + 1) = '/') then
      -- it's a '.'
      let n := if charAt path (cur + 1) = '/' then 2 else 1
      if cur ≠ start then mainLoop fuel start (shift path (cur - 1) (n + 1)) (cur - 1)
      else mainLoop fuel start (shift path cur n) cur
    else if charAt path cur = '.' ∧ charAt path (cur + 1) = '.'
        ∧ (charAt path (cur + 2) = nul ∨ charAt path (cur + 2) = '/') then
      -- it's a '..'
      if cur = start then Result.aboveRoot path
      else
        let n := if charAt path (cur + 2) = '/' then 4 else 3
        let cur1 := cur - 1
        let prevElStart := (rfind path start cur1).getD start
        let prevElLen := cur1 - prevElStart
        mainLoop fuel start (shift path (cur1 - prevElLen) (n + prevElLen)) (cur1 - prevElLen)
    else
      match skipLoop (path.length + 1) path cur with
      | none => Result.fuelExhausted
      | some (p, c) => mainLoop fuel start p c

/-- The function `ComponentPath::normalize`. -/
def normalize (path : List Char) : Result :=
  if isValid path then
    let start := if charAt path 0 = '/' then 1 else 0
    match stripLoop (path.length + 1) path start with
    | none => Result.fuelExhausted
    | some p => mainLoop (p.length + 1) start p start
  else Result.invalidCharacters path

/-! ## One iteration of the loops -/

/-- The value `len` that the `shift` lambda computes for the pointer at offset `k`. -/
def shiftLen (path : List Char) (k : Nat) : Nat :=
  toSizeT ((path.length : Int) - (toSizeT (0 - (k : Int)) : Int))

/-- The value `to_move` of the `shift` lambda, the number of iterations of its copy loop. -/
def shiftToMove (path : List Char) (k n : Nat) : Nat :=
  toSizeT ((shiftLen path k : Int) - (n : Int))

/-- One past the last offset that the copy loop of `shift` writes: it assigns `s[i]` for
every `i < to_move`, the offsets `k`, ..., `k + to_move - 1` of the string. -/
def shiftWriteEnd (path : List Char) (k n : Nat) : Nat := k + shiftToMove path k n

/-- One past the last offset that the copy loop of `shift` reads: it reads `s[i+n]` for
every `i < to_move`. -/
def shiftReadEnd (path : List Char) (k n : Nat) : Nat := k + shiftToMove path k n + n

/-- The copy loop of `shift` writes only inside the `size() + 1` bytes that the string
owns for certain, its characters and its terminator. -/
def shiftWritesInside (path : List Char) (k n : Nat) : Bool :=
  decide (shiftWriteEnd path k n ≤ path.length + 1)

/-- The canonical relative path `aaaaaaaaaaaaaaaa/b/c` followed by `"/.."`: 23 characters. -/
def longTrailingDotdot : List Char := "aaaaaaaaaaaaaaaa/b/c/..".toList

/-- The plain segments `aaaaaaaaaaaaaaaa` and `b` separated by two slashes: 19 characters. -/
def longDoubleSlash : List Char := "aaaaaaaaaaaaaaaa//b".toList

/-- A segment of 24 characters followed by `"//../.."`: 31 characters. -/
def longAscent : List Char := "aaaaaaaaaaaaaaaaaaaaaaaa//../..".toList

/-- What one iteration of the main loop leaves behind: the outcome of `normalize`, or
the string and the cursor that the next iteration starts from. -/
inductive Step where
  | done (r : Result)
  | next (path : List Char) (cur : Nat)
  deriving DecidableEq, Repr

/-- One iteration of the main loop `while (cur[0] != '\0')` of `normalize`: the test of
the loop and its body (the exit of the loop includes the trailing-slash step). -/
def mainStep (start : Nat) (path : List Char) (cur : Nat) : Step :=
  if charAt path cur = nul then Step.done (Result.ok (finish path))
  else if charAt path cur = '.' ∧ (charAt path (cur + 1) = nul ∨ charAt path (cur + 1) = '/') then
    let n := if charAt path (cur + 1) = '/' then 2 else 1
    if cur ≠ start then Step.next (shift path (cur - 1) (n + 1)) (cur - 1)
    else Step.next (shift path cur n) cur
  else if charAt path cur = '.' ∧ charAt path (cur + 1) = '.'
      ∧ (charAt path (cur + 2) = nul ∨ charAt path (cur + 2) = '/') then
    if cur = start then Step.done (Result.aboveRoot path)
    else
      let n := if charAt path (cur + 2) = '/' then 4 else 3
      let cur1 := cur - 1
      let prevElStart := (rfind path start cur1).getD start
      let prevElLen := cur1 - prevElStart
      Step.next (shift path (cur1 - prevElLen) (n + prevElLen)) (cur1 - prevElLen)
  else
    match skipLoop (path.length + 1) path cur with
    | none => Step.done Result.fuelExhausted
    | some (p, c) => Step.next p c

/-! ## Vocabulary of the specification -/

/-- The `'/'`-separated elements of a string (a string with `k` slashes has `k + 1` elements). -/
def splitOnSlash : List Char → List (List Char)
  | [] => [[]]
  | c :: cs =>
    if c = '/' then [] :: splitOnSlash cs
    else
      match splitOnSlash cs with
      | [] => [[c]]
      | e :: es => (c :: e) :: es

/-- The stack resolver of the tokenize-then-stack reference, written from the
specification: empty and `.` elements are discarded, `..` pops (failing on an
empty stack), every other element is pushed. -/
def referenceResolve : (stack : List (List Char)) → List (List Char) → Option (List (List Char))
  | stack, [] => some stack
  | stack, e :: es =>
    if e = [] ∨ e = ['.'] then referenceResolve stack es
    else if e = ['.', '.'] then
      if stack = [] then none else referenceResolve stack.dropLast es
    else referenceResolve (stack ++ [e]) es

/-- A segment list written as a string: the segments joined by single slashes,
after one leading slash when `absolute`. -/
def joinSegments (absolute : Bool) (segs : List (List Char)) : List Char :=
  (if absolute then ['/'] else []) ++ List.intercalate ['/'] segs

/-- The tokenize-then-stack reference of the specification: split on `'/'`,
resolve with a stack, join with single slashes, keep a leading slash iff the
input began with one.  `none` is the above-root failure. -/
def referenceNormalize (s : List Char) : Option (List Char) :=
  (referenceResolve [] (splitOnSlash s)).map fun stack =>
    joinSegments (s.head? = some '/') stack

/-- Reading elements left to right with `ordinary` ordinary and `dotdot` `..`
elements seen so far (empty and `.` elements ignored): does some `..` occur
where the `..` count has reached the ordinary count? -/
def ascendsFrom : (ordinary dotdot : Nat) → List (List Char) → Bool
  | _, _, [] => false
  | ordinary, dotdot, e :: es =>
    if e = [] ∨ e = ['.'] then ascendsFrom ordinary dotdot es
    else if e = ['.', '.'] then decide (ordinary ≤ dotdot) || ascendsFrom ordinary (dotdot + 1) es
    else ascendsFrom (ordinary + 1) dotdot es

/-- Resolution of `s` would ascend past the start. -/
def ascendsPastStart (s : List Char) : Bool := ascendsFrom 0 0 (splitOnSlash s)

/-- The segments of `segs`, each followed by a slash. -/
def slashTerminated : List (List Char) → List Char
  | [] => []
  | seg :: segs => seg ++ '/' :: slashTerminated segs

/-- A plain segment: non-empty, no separator, no rejected character, neither `.` nor `..`. -/
def PlainSegment (seg : List Char) : Prop :=
  seg ≠ [] ∧ '/' ∉ seg ∧ (∀ c ∈ seg, c ∉ invalidCharGlyphs) ∧ seg ≠ ['.'] ∧ seg ≠ ['.', '.']

/-- The string made of `k` copies of `"./"`. -/
def dotSlashes : Nat → List Char
  | 0 => []
  | k + 1 => '.' :: '/' :: dotSlashes k

/-! ## `split` and the path algebra -/

/-- The static function `ComponentPath::split`. -/
def split (_path : List Char) : List Char × List Char :=
  ("todo".toList, "todo".toList)

/-- Modelled from the spec: the value kept by the base class `Path`, whose code is not
part of the sources at hand: an ordered sequence of segments (front closest to the
root) and the absolute/relative flag. -/
structure Path where
  segments : List (List Char)
  isAbsolute : Bool
  deriving DecidableEq, Repr

/-- The failures of the path algebra named by the specification. -/
inductive PathError where
  | aboveRoot
  | indexOutOfRange
  deriving DecidableEq, Repr

/-- Modelled from the spec: the constructor `ComponentPath(pathVec, isAbsolute)` hands its
arguments to the constructor of `Path`, whose code is missing; the specification has it
build the path directly from a segment sequence known to satisfy the invariants. -/
def ofPathVec (pathVec : List (List Char)) (isAbsolute : Bool) : Path :=
  { segments := pathVec, isAbsolute := isAbsolute }

/-- Modelled from the spec: `Path::getNumPathLevels`, whose code is missing, is the
segment count. -/
def getNumPathLevels (p : Path) : Nat := p.segments.length

/-- Modelled from the spec: `Path::getPathElement`, whose code is missing, returns the
segment text at `index` (0 closest to the root) and fails with an index-out-of-range
condition when `index` is not below the segment count. -/
def getPathElement (p : Path) (index : Nat) : Except PathError (List Char) :=
  match p.segments[index]? with
  | some seg => Except.ok seg
  | none => Except.error PathError.indexOutOfRange

/-- The method `ComponentPath::getSubcomponentNameAtLevel`. -/
def getSubcomponentNameAtLevel (p : Path) (index : Nat) : Except PathError (List Char) :=
  getPathElement p index

/-- The method `ComponentPath::getComponentName`. -/
def getComponentName (p : Path) : Except PathError (List Char) :=
  if getNumPathLevels p = 0 then Except.ok []
  else getSubcomponentNameAtLevel p (getNumPathLevels p - 1)

/-- The method `ComponentPath::formAbsolutePath`; `vecOf` stands for
`Path::formAbsolutePathVec`, whose code is missing. -/
def formAbsolutePath (vecOf : Path → Path → Except PathError (List (List Char)))
    (self otherPath : Path) : Except PathError Path :=
  (vecOf self otherPath).map fun absPathVec => ofPathVec absPathVec true

/-- The method `ComponentPath::formRelativePath`; `vecOf` stands for
`Path::formRelativePathVec`, whose code is missing. -/
def formRelativePath (vecOf : Path → Path → Except PathError (List (List Char)))
    (self otherPath : Path) : Except PathError Path :=
  (vecOf self otherPath).map fun relPathVec => ofPathVec relPathVec false

/-- The method `ComponentPath::getParentPath`; `vecOf` stands for
`Path::getParentPathVec`, whose code is missing. -/
def getParentPath (vecOf : Path → Except PathError (List (List Char)))
    (self : Path) : Except PathError Path :=
  (vecOf self).map fun parentPathVec => ofPathVec parentPathVec self.isAbsolute

/-- Modelled from the spec: resolution of `.` and `..` segments on a segment list, the
part of `Path::formAbsolutePathVec` (code missing) that follows the concatenation:
`.` is skipped, `..` pops the previous segment and fails above the root when there is
none, every other segment is kept. -/
def resolveSegments : (stack : List (List Char)) → List (List Char)
    → Except PathError (List (List Char))
  | stack, [] => Except.ok stack
  | stack, seg :: rest =>
    if seg = ['.'] then resolveSegments stack rest
    else if seg = ['.', '.'] then
      if stack = [] then Except.error PathError.aboveRoot
      else resolveSegments stack.dropLast rest
    else resolveSegments (stack ++ [seg]) rest

/-- Modelled from the spec: `Path::formAbsolutePathVec`, whose code is missing: an
absolute `otherPath` is the result; otherwise the segments of the base followed by those
of `otherPath` are resolved. -/
def formAbsolutePathVec (self otherPath : Path) : Except PathError (List (List Char)) :=
  if otherPath.isAbsolute then Except.ok otherPath.segments
  else resolveSegments [] (self.segments ++ otherPath.segments)

/-- The length of the longest common leading run of equal segments. -/
def commonPrefixLength : List (List Char) → List (List Char) → Nat
  | x :: xs, y :: ys => if x = y then commonPrefixLength xs ys + 1 else 0
  | _, _ => 0

/-- Modelled from the spec: `Path::formRelativePathVec`, whose code is missing, with the
receiver as `from` and `otherPath` as `to`: one `..` for every segment of `from` beyond
the common prefix, then the segments of `to` beyond the common prefix. -/
def formRelativePathVec (self otherPath : Path) : Except PathError (List (List Char)) :=
  let n := commonPrefixLength self.segments otherPath.segments
  Except.ok (List.replicate (self.segments.length - n) ['.', '.'] ++ otherPath.segments.drop n)

/-- A normalized path: every segment is a plain segment. -/
def Normalized (p : Path) : Prop := ∀ seg ∈ p.segments, PlainSegment seg

/-! ## Validation -/

theorem isValid_iff (s : List Char) :
    isValid s = true ↔ ∀ c ∈ s, c ≠ '\\' ∧ c ≠ '*' ∧ c ≠ '+' ∧ c ≠ ' ' ∧ c ≠ '\t' ∧ c ≠ '\n' := by
  simp only [isValid, invalidCharGlyphs, List.all_cons, List.all_nil, Bool.and_true,
    Bool.and_eq_true, Bool.not_eq_true', List.contains_eq_any_beq, List.any_eq_false,
    beq_iff_eq]
  constructor
  · rintro ⟨h1, h2, h3, h4, h5, h6⟩ c hc
    exact ⟨Ne.symm (h1 c hc), Ne.symm (h2 c hc), Ne.symm (h3 c hc), Ne.symm (h4 c hc),
      Ne.symm (h5 c hc), Ne.symm (h6 c hc)⟩
  · intro h
    exact ⟨fun c hc => Ne.symm (h c hc).1, fun c hc => Ne.symm (h c hc).2.1,
      fun c hc => Ne.symm (h c hc).2.2.1,
      fun c hc => Ne.symm (h c hc).2.2.2.1, fun c hc => Ne.symm (h c hc).2.2.2.2.1,
      fun c hc => Ne.symm (h c hc).2.2.2.2.2⟩

theorem mainLoop_ne_invalidCharacters (fuel start : Nat) (path : List Char) (cur : Nat)
    (p : List Char) : mainLoop fuel start path cur ≠ Result.invalidCharacters p := by
  induction fuel generalizing path cur with
  | zero => simp [mainLoop]
  | succ f ih =>
    unfold mainLoop
    dsimp only
    repeat' split
    all_goals first | exact ih _ _ | simp

theorem normalize_ne_invalidCharacters_of_isValid (s : List Char) (h : isValid s = true)
    (p : List Char) : normalize s ≠ Result.invalidCharacters p := by
  unfold normalize
  rw [if_pos h]
  dsimp only
  split
  · simp
  · exact mainLoop_ne_invalidCharacters _ _ _ _ _

/-- C4: a string containing a backslash, `*`, `+`, space, tab or newline makes
`normalize` fail with the invalid-characters error (built from the unchanged
input), hence not with the above-root error; a string containing none of them
never makes it fail with the invalid-characters error. -/
theorem normalize_invalidCharacters_iff (s : List Char) :
    ((∃ c ∈ s, c = '\\' ∨ c = '*' ∨ c = '+' ∨ c = ' ' ∨ c = '\t' ∨ c = '\n') →
        normalize s = Result.invalidCharacters s ∧ ∀ p, normalize s ≠ Result.aboveRoot p)
      ∧ ((∀ c ∈ s, c ≠ '\\' ∧ c ≠ '*' ∧ c ≠ '+' ∧ c ≠ ' ' ∧ c ≠ '\t' ∧ c ≠ '\n') →
        ∀ p, normalize s ≠ Result.invalidCharacters p) := by
  constructor
  · rintro ⟨c, hc, hbad⟩
    have hv : ¬ isValid s = true := by
      intro hv
      have := (isValid_iff s).1 hv c hc
      tauto
    have heq : normalize s = Result.invalidCharacters s := by
      unfold normalize
      rw [if_neg hv]
    exact ⟨heq, fun p => by rw [heq]; simp⟩
  · intro h p
    exact normalize_ne_invalidCharacters_of_isValid s ((isValid_iff s).2 h) p

/-- C4 at concrete inputs: `".. "` fails with the invalid-characters error although it
starts with a `..` element, and `"a"` does not fail with it. -/
theorem normalize_invalidCharacters_iff_witness :
    (normalize (".. ".toList) = Result.invalidCharacters (".. ".toList)
        ∧ ∀ p, normalize (".. ".toList) ≠ Result.aboveRoot p)
      ∧ ∀ p, normalize ("a".toList) ≠ Result.invalidCharacters p :=
  ⟨(normalize_invalidCharacters_iff (".. ".toList)).1 ⟨' ', by decide, by decide⟩,
    (normalize_invalidCharacters_iff ("a".toList)).2 (by decide)⟩

/-! ## The `shift` lambda and the loops on canonical input -/

theorem toSizeT_of_lt (z : Int) (h0 : 0 ≤ z) (h1 : z < 2 ^ 64) : toSizeT z = z.toNat := by
  unfold toSizeT
  rw [Int.emod_eq_of_lt h0 h1]

theorem shift_len_eq (size k : Nat) (h : size + k < 2 ^ 64) :
    toSizeT ((size : Int) - (toSizeT (0 - (k : Int)) : Int)) = size + k := by
  unfold toSizeT
  omega

theorem charAt_eq_getElem?_getD (path : List Char) (i : Nat) :
    charAt path i = (path[i]?).getD nul := by
  simp [charAt, List.getD_eq_getElem?_getD]

theorem shiftCopy_spec (k n : Nat) (p : List Char) (t i : Nat) (buf : List Char)
    (hlen : buf.length = p.length)
    (hlo : ∀ j, j < k → buf[j]? = p[j]?)
    (hmid : ∀ j, k ≤ j → j < k + i → j + n < p.length → buf[j]? = p[j + n]?)
    (hhi : ∀ j, k + i ≤ j → buf[j]? = p[j]?) :
    (shiftCopy k n t i buf).length = p.length
      ∧ (∀ j, j < k → (shiftCopy k n t i buf)[j]? = p[j]?)
      ∧ (∀ j, k ≤ j → j < k + i + t → j + n < p.length →
          (shiftCopy k n t i buf)[j]? = p[j + n]?) := by
  induction t generalizing i buf with
  | zero => exact ⟨hlen, hlo, fun j h1 h2 h3 => hmid j h1 (by omega) h3⟩
  | succ t ih =>
    unfold shiftCopy
    have hread : charAt buf (k + i + n) = charAt p (k + i + n) := by
      rw [charAt_eq_getElem?_getD, charAt_eq_getElem?_getD, hhi _ (by omega)]
    have := ih (i + 1) (buf.set (k + i) (charAt buf (k + i + n)))
      (by simpa using hlen)
      (fun j hj => by rw [List.getElem?_set_ne (by omega)]; exact hlo j hj)
      (fun j h1 h2 h3 => by
        by_cases hj : j = k + i
        · subst hj
          have h4 : k + i < buf.length := by omega
          rw [List.getElem?_set_self h4, hread, charAt_eq_getElem?_getD]
          simp [List.getElem?_eq_getElem h3]
        · rw [List.getElem?_set_ne (by omega)]
          exact hmid j h1 (by omega) h3)
      (fun j hj => by rw [List.getElem?_set_ne (by omega)]; exact hhi j (by omega))
    refine ⟨this.1, this.2.1, fun j h1 h2 h3 => this.2.2 j h1 (by omega) h3⟩

theorem shift_eq (path : List Char) (k n : Nat) (hkn : k + n ≤ path.length)
    (hsize : path.length + k < 2 ^ 64) :
    shift path k n = path.take k ++ path.drop (k + n) := by
  unfold shift
  dsimp only
  rw [shift_len_eq _ _ hsize]
  have h1 : toSizeT (((path.length + k : Nat) : Int) - (n : Int)) = path.length + k - n := by
    unfold toSizeT; omega
  have h2 : toSizeT ((path.length : Int) - (n : Int)) = path.length - n := by
    unfold toSizeT; omega
  rw [h1, h2]
  obtain ⟨hlen, hlo, hmid⟩ := shiftCopy_spec k n path (path.length + k - n) 0 path rfl
    (fun _ _ => rfl) (fun j h1 h2 _ => by omega) (fun _ _ => rfl)
  unfold resize
  rw [if_pos (by omega)]
  apply List.ext_getElem?
  intro j
  by_cases hj : j < path.length - n
  · rw [List.getElem?_take_of_lt hj]
    by_cases hjk : j < k
    · rw [hlo j hjk, List.getElem?_append_left (by simp; omega), List.getElem?_take_of_lt hjk]
    · rw [hmid j (by omega) (by omega) (by omega), List.getElem?_append_right (by simp; omega)]
      simp only [List.length_take, List.getElem?_drop]
      congr 1
      omega
  · rw [List.getElem?_eq_none (by simp; omega), List.getElem?_eq_none (by simp; omega)]


theorem shift_append (a b c : List Char) (hsize : (a ++ (b ++ c)).length < 2 ^ 63) :
    shift (a ++ (b ++ c)) a.length b.length = a ++ c := by
  have hlen : (a ++ (b ++ c)).length = a.length + (b.length + c.length) := by simp
  rw [shift_eq _ _ _ (by omega) (by omega)]
  rw [List.take_left, ← List.append_assoc, ← List.length_append, List.drop_left]

@[simp] theorem charAt_nil (i : Nat) : charAt [] i = nul := by
  simp [charAt]

@[simp] theorem charAt_cons_zero (c : Char) (t : List Char) : charAt (c :: t) 0 = c := by
  simp [charAt]

@[simp] theorem charAt_cons_succ (c : Char) (t : List Char) (i : Nat) :
    charAt (c :: t) (i + 1) = charAt t i := by
  simp [charAt]

@[simp] theorem charAt_append_right (a b : List Char) (i : Nat) :
    charAt (a ++ b) (a.length + i) = charAt b i := by
  simp [charAt, List.getD_eq_getElem?_getD, List.getElem?_append_right]

@[simp] theorem charAt_append_length (a b : List Char) :
    charAt (a ++ b) a.length = charAt b 0 := by
  simpa using charAt_append_right a b 0

theorem charAt_of_length_le (path : List Char) (i : Nat) (h : path.length ≤ i) :
    charAt path i = nul := by
  simp [charAt, List.getD_eq_getElem?_getD, List.getElem?_eq_none h]

theorem slash_ne_nul : '/' ≠ nul := by decide

theorem dot_ne_nul : '.' ≠ nul := by decide

theorem collapseLoop_of_ne (fuel : Nat) (path : List Char) (cur : Nat)
    (h : charAt path cur ≠ '/') : collapseLoop (fuel + 1) path cur = some path := by
  unfold collapseLoop
  rw [if_neg h]

theorem skipLoop_segment_slash (seg : List Char) (hseg : ∀ c ∈ seg, c ≠ '/' ∧ c ≠ nul)
    (r : List Char) (hr : charAt r 0 ≠ '/') (pre : List Char) (fuel : Nat)
    (hf : seg.length < fuel) :
    skipLoop fuel (pre ++ (seg ++ '/' :: r)) pre.length
      = some (pre ++ (seg ++ '/' :: r), pre.length + seg.length + 1) := by
  induction seg generalizing pre fuel with
  | nil =>
    obtain ⟨f, rfl⟩ : ∃ f, fuel = f + 1 := ⟨fuel - 1, by simp at hf; omega⟩
    unfold skipLoop
    have h1 : charAt (pre ++ ([] ++ '/' :: r)) pre.length = '/' := by simp
    rw [if_neg (by rw [h1]; exact slash_ne_nul), if_pos h1]
    rw [collapseLoop_of_ne _ _ _ (by simpa using hr)]
    simp
  | cons c cs ih =>
    obtain ⟨f, rfl⟩ : ∃ f, fuel = f + 1 := ⟨fuel - 1, by simp at hf; omega⟩
    unfold skipLoop
    have hc := hseg c (by simp)
    have h1 : charAt (pre ++ (c :: cs ++ '/' :: r)) pre.length = c := by simp
    rw [if_neg (by rw [h1]; exact hc.2), if_neg (by rw [h1]; exact hc.1)]
    have := ih (fun d hd => hseg d (by simp [hd])) (pre ++ [c]) f (by simp at hf; omega)
    simp only [List.append_assoc, List.singleton_append, List.length_append,
      List.length_singleton, List.cons_append, List.nil_append] at this ⊢
    rw [this]
    simp only [List.length_cons]
    congr 2
    omega


theorem mainLoop_over_segment (start : Nat) (seg : List Char)
    (hseg : ∀ c ∈ seg, c ≠ '/' ∧ c ≠ nul) (hne : seg ≠ []) (hdot : seg ≠ ['.'])
    (hdotdot : seg ≠ ['.', '.']) (r : List Char) (hr : charAt r 0 ≠ '/') (pre : List Char)
    (f : Nat) :
    mainLoop (f + 1) start (pre ++ (seg ++ '/' :: r)) pre.length
      = mainLoop f start (pre ++ (seg ++ '/' :: r)) (pre.length + seg.length + 1) := by
  have hskip := skipLoop_segment_slash seg hseg r hr pre
    ((pre ++ (seg ++ '/' :: r)).length + 1) (by simp; omega)
  rw [mainLoop]
  obtain ⟨c, t, rfl⟩ : ∃ c t, seg = c :: t := by
    cases seg with
    | nil => exact absurd rfl hne
    | cons c t => exact ⟨c, t, rfl⟩
  have hc := hseg c (by simp)
  have h0 : charAt (pre ++ (c :: t ++ '/' :: r)) pre.length = c := by simp
  have hA : ¬ (charAt (pre ++ (c :: t ++ '/' :: r)) pre.length = '.'
      ∧ (charAt (pre ++ (c :: t ++ '/' :: r)) (pre.length + 1) = nul
        ∨ charAt (pre ++ (c :: t ++ '/' :: r)) (pre.length + 1) = '/')) := by
    rintro ⟨hc1, h2⟩
    rw [h0] at hc1
    subst hc1
    cases t with
    | nil => exact hdot rfl
    | cons d t' =>
      have hd := hseg d (by simp)
      simp at h2
      tauto
  have hB : ¬ (charAt (pre ++ (c :: t ++ '/' :: r)) pre.length = '.'
      ∧ charAt (pre ++ (c :: t ++ '/' :: r)) (pre.length + 1) = '.'
      ∧ (charAt (pre ++ (c :: t ++ '/' :: r)) (pre.length + 2) = nul
        ∨ charAt (pre ++ (c :: t ++ '/' :: r)) (pre.length + 2) = '/')) := by
    rintro ⟨hc1, hc2, h3⟩
    rw [h0] at hc1
    subst hc1
    cases t with
    | nil => simp at hc2
    | cons d t' =>
      simp at hc2
      subst hc2
      cases t' with
      | nil => exact hdotdot rfl
      | cons e t'' =>
        have he := hseg e (by simp)
        simp at h3
        tauto
  rw [if_neg (by rw [h0]; exact hc.2), if_neg hA, if_neg hB, hskip]


theorem slashTerminated_append (xs ys : List (List Char)) :
    slashTerminated (xs ++ ys) = slashTerminated xs ++ slashTerminated ys := by
  induction xs with
  | nil => rfl
  | cons x xs ih => simp [slashTerminated, ih]

theorem intercalate_append_singleton (segs : List (List Char)) (last : List Char) :
    List.intercalate ['/'] (segs ++ [last]) = slashTerminated segs ++ last := by
  induction segs with
  | nil => simp [List.intercalate, slashTerminated]
  | cons x xs ih =>
    cases xs with
    | nil => simp [List.intercalate, slashTerminated]
    | cons y ys =>
      have hcons : List.intercalate ['/'] (x :: y :: ys ++ [last])
          = x ++ '/' :: List.intercalate ['/'] (y :: ys ++ [last]) := by
        simp [List.intercalate, List.intersperse]
      rw [hcons, ih]
      simp [slashTerminated]

theorem charAt_slashTerminated_append_ne (segs : List (List Char))
    (hsegs : ∀ seg ∈ segs, seg ≠ [] ∧ ∀ c ∈ seg, c ≠ '/' ∧ c ≠ nul)
    (rest : List Char) (hrest : charAt rest 0 ≠ '/') :
    charAt (slashTerminated segs ++ rest) 0 ≠ '/' := by
  cases segs with
  | nil => simpa [slashTerminated] using hrest
  | cons x xs =>
    obtain ⟨hne, hx⟩ := hsegs x (by simp)
    cases x with
    | nil => exact absurd rfl hne
    | cons c t =>
      simp only [slashTerminated, List.cons_append, charAt_cons_zero]
      exact (hx c (by simp)).1

theorem mainLoop_over_segments (start : Nat) (segs : List (List Char))
    (hsegs : ∀ seg ∈ segs, (seg ≠ [] ∧ ∀ c ∈ seg, c ≠ '/' ∧ c ≠ nul)
      ∧ seg ≠ ['.'] ∧ seg ≠ ['.', '.'])
    (rest : List Char) (hrest : charAt rest 0 ≠ '/') (pre : List Char) (f : Nat) :
    mainLoop (f + segs.length) start (pre ++ (slashTerminated segs ++ rest)) pre.length
      = mainLoop f start (pre ++ (slashTerminated segs ++ rest))
          (pre.length + (slashTerminated segs).length) := by
  induction segs generalizing pre with
  | nil => simp [slashTerminated]
  | cons x xs ih =>
    have hx := hsegs x (by simp)
    have hxs : ∀ seg ∈ xs, (seg ≠ [] ∧ ∀ c ∈ seg, c ≠ '/' ∧ c ≠ nul)
        ∧ seg ≠ ['.'] ∧ seg ≠ ['.', '.'] := fun seg h => hsegs seg (by simp [h])
    have hr := charAt_slashTerminated_append_ne xs (fun seg h => (hxs seg h).1) rest hrest
    have hstep := mainLoop_over_segment start x hx.1.2 hx.1.1 hx.2.1 hx.2.2
      (slashTerminated xs ++ rest) hr pre (f + xs.length)
    have hih := ih hxs (pre ++ (x ++ ['/']))
    have e1 : pre ++ (x ++ ['/']) ++ (slashTerminated xs ++ rest)
        = pre ++ (x ++ '/' :: (slashTerminated xs ++ rest)) := by simp
    have e2 : (pre ++ (x ++ ['/'])).length = pre.length + x.length + 1 := by
      simp only [List.length_append, List.length_singleton]; omega
    have e3 : slashTerminated (x :: xs) ++ rest = x ++ '/' :: (slashTerminated xs ++ rest) := by
      simp [slashTerminated]
    have e4 : (slashTerminated (x :: xs)).length
        = x.length + 1 + (slashTerminated xs).length := by
      simp only [slashTerminated, List.length_append, List.length_cons]; omega
    rw [e1, e2] at hih
    rw [e3, e4, List.length_cons, show f + (xs.length + 1) = f + xs.length + 1 by omega, hstep,
      hih]
    congr 1
    omega

theorem mainLoop_at_end (f start : Nat) (path : List Char) :
    mainLoop (f + 1) start path path.length = Result.ok (finish path) := by
  rw [mainLoop, if_pos (charAt_of_length_le path path.length (Nat.le_refl _))]

theorem finish_of_length_le_one (path : List Char) (h : path.length ≤ 1) :
    finish path = path := by
  unfold finish
  rw [if_neg (by omega)]

theorem finish_append_segment (P seg : List Char) (hne : seg ≠ []) (hseg : ∀ c ∈ seg, c ≠ '/') :
    finish (P ++ seg) = P ++ seg := by
  unfold finish
  rw [if_neg]
  rintro ⟨-, h⟩
  rw [List.getLast?_append_of_ne_nil _ hne, List.getLast?_eq_getLast _ hne] at h
  exact hseg _ (List.getLast_mem hne) (Option.some.inj h)

theorem mem_slashTerminated (segs : List (List Char)) (c : Char)
    (h : c ∈ slashTerminated segs) : c = '/' ∨ ∃ seg ∈ segs, c ∈ seg := by
  induction segs with
  | nil => simp [slashTerminated] at h
  | cons x xs ih =>
    simp only [slashTerminated, List.mem_append, List.mem_cons] at h
    rcases h with h | h | h
    · exact Or.inr ⟨x, by simp, h⟩
    · exact Or.inl h
    · rcases ih h with h | ⟨seg, hseg, hc⟩
      · exact Or.inl h
      · exact Or.inr ⟨seg, by simp [hseg], hc⟩

theorem length_le_length_slashTerminated (segs : List (List Char)) :
    segs.length ≤ (slashTerminated segs).length := by
  induction segs with
  | nil => simp
  | cons x xs ih =>
    simp only [slashTerminated, List.length_cons, List.length_append]
    omega

theorem stripLoop_segment (fuel : Nat) (lead seg rest : List Char) (hne : seg ≠ [])
    (hseg : ∀ c ∈ seg, c ≠ '/') (hdot : seg ≠ ['.']) :
    stripLoop (fuel + 1) (lead ++ (seg ++ rest)) lead.length = some (lead ++ (seg ++ rest)) := by
  rw [stripLoop, if_neg]
  rintro ⟨h0, h1, -⟩
  cases seg with
  | nil => exact hne rfl
  | cons c t =>
    cases t with
    | nil =>
      simp at h0
      subst h0
      exact hdot rfl
    | cons d t' =>
      simp at h1
      exact hseg d (by simp) h1

/-! ## Evaluations of `normalize` -/

/-- C1: `normalize` is not idempotent on `".a/./."`: the first pass returns `"."`,
and normalising `"."` returns the empty string. -/
theorem normalize_twice_differs :
    normalize (".a/./.".toList) = Result.ok (".".toList)
      ∧ normalize (".".toList) = Result.ok [] := by
  decide

/-- C2: on `"/a/./b"` and on `"/x/y/../z"` the in-place `normalize` and the
tokenize-then-stack reference return different strings. -/
theorem normalize_differs_from_reference :
    normalize ("/a/./b".toList) = Result.ok ("/ab".toList)
      ∧ referenceNormalize ("/a/./b".toList) = some ("/a/b".toList)
      ∧ normalize ("/x/y/../z".toList) = Result.ok ("/xz".toList)
      ∧ referenceNormalize ("/x/y/../z".toList) = some ("/x/z".toList) := by
  decide

/-- C3: `normalize` throws the above-root error on `"a/././.."`, where resolution
never ascends past the start, and returns `"/"` on `"//.."`, where it does. -/
theorem normalize_aboveRoot_mismatch :
    normalize ("a/././..".toList) = Result.aboveRoot ("..".toList)
      ∧ ascendsPastStart ("a/././..".toList) = false
      ∧ normalize ("//..".toList) = Result.ok ("/".toList)
      ∧ ascendsPastStart ("//..".toList) = true := by
  decide

/-- C5: `normalize` returns `"a/."` on `"a/.b/./."`, a string whose last element is `.`. -/
theorem normalize_leaves_dot_element :
    normalize ("a/.b/./.".toList) = Result.ok ("a/.".toList)
      ∧ ['.'] ∈ splitOnSlash ("a/.".toList) := by
  decide

/-- C6: `normalize` returns `"//a"` unchanged, and returns `"//a"` on `"/b/..//a"`:
results with two adjacent separators at their start. -/
theorem normalize_keeps_double_slash :
    normalize ("//a".toList) = Result.ok ("//a".toList)
      ∧ normalize ("/b/..//a".toList) = Result.ok ("//a".toList) := by
  decide

/-- C7: `normalize` returns `"x/"` on `"x/y/././/"`: a result other than `"/"` that
ends with a separator. -/
theorem normalize_keeps_trailing_slash :
    normalize ("x/y/././/".toList) = Result.ok ("x/".toList) := by
  decide

/-- C8: `normalize` returns `"ab"` on `"a/./b"`: the `.` element is removed together
with both separators around it. -/
theorem normalize_dot_merges_neighbours :
    normalize ("a/./b".toList) = Result.ok ("ab".toList) := by
  decide

/-- C9: `normalize` returns `"ac"` on `"a/b/../c"`: the `..` element removes `b` and
both separators, while `"/a/b/../../c"` does come out as `"/c"`. -/
theorem normalize_dotdot_merges_neighbours :
    normalize ("a/b/../c".toList) = Result.ok ("ac".toList)
      ∧ normalize ("/a/b/../../c".toList) = Result.ok ("/c".toList) := by
  decide

/-! ## Validation, `split` and the path algebra -/

theorem isValid_eq_false_iff (s : List Char) :
    isValid s = false
      ↔ ∃ c ∈ s, c = '\\' ∨ c = '*' ∨ c = '+' ∨ c = ' ' ∨ c = '\t' ∨ c = '\n' := by
  rw [← Bool.not_eq_true, isValid_iff]
  push_neg
  constructor
  · rintro ⟨c, hc, h⟩
    refine ⟨c, hc, ?_⟩
    by_contra hcon
    push_neg at hcon
    exact hcon.2.2.2.2.2 (h hcon.1 hcon.2.1 hcon.2.2.1 hcon.2.2.2.1 hcon.2.2.2.2.1)
  · rintro ⟨c, hc, h⟩
    refine ⟨c, hc, fun h1 h2 h3 h4 h5 => ?_⟩
    tauto

/-- C16: the table scanned by `isValid` is the documented `invalidChars` without the
separator; `isValid s` is false exactly when `s` contains a backslash, `*`, `+`, space,
tab or newline; a string whose only character from `invalidChars` is `/` is valid. -/
theorem isValid_enforced_set (s : List Char) :
    invalidCharGlyphs = invalidChars.filter (fun c => c ≠ separator)
      ∧ (isValid s = false
        ↔ ∃ c ∈ s, c = '\\' ∨ c = '*' ∨ c = '+' ∨ c = ' ' ∨ c = '\t' ∨ c = '\n')
      ∧ ((∀ c ∈ s, c ∈ invalidChars → c = '/') → isValid s = true) := by
  refine ⟨by decide, isValid_eq_false_iff s, fun h => ?_⟩
  rw [isValid_iff]
  intro c hc
  have hc' := h c hc
  simp only [invalidChars, List.mem_cons, List.mem_singleton, List.not_mem_nil, or_false] at hc'
  refine ⟨?_, ?_, ?_, ?_, ?_, ?_⟩ <;> intro heq <;> subst heq <;> revert hc' <;> decide

/-- C16 at concrete inputs: `"a/b"` passes validation and `"a b"` does not. -/
theorem isValid_enforced_set_witness :
    isValid ("a/b".toList) = true ∧ isValid ("a b".toList) = false :=
  ⟨(isValid_enforced_set ("a/b".toList)).2.2 (by decide),
    (isValid_enforced_set ("a b".toList)).2.1.2 ⟨' ', by decide, by decide⟩⟩

/-- C17: `split` returns the pair `("todo", "todo")` for every input, so for `"/a/b/c"` it
does not return the parent `"/a/b"` and the leaf name `"c"`. -/
theorem split_returns_todo :
    (∀ path, split path = ("todo".toList, "todo".toList))
      ∧ split ("/a/b/c".toList) ≠ ("/a/b".toList, "c".toList) :=
  ⟨fun _ => rfl, by decide⟩

/-- C18: `getComponentName` never fails: it returns the empty string for a path without
segments and the segment at index `|L| - 1` otherwise. -/
theorem getComponentName_eq (p : Path) :
    getComponentName p = Except.ok (p.segments.getD (p.segments.length - 1) [])
      ∧ (p.segments = [] → getComponentName p = Except.ok [])
      ∧ ∀ e, getComponentName p ≠ Except.error e := by
  have h : getComponentName p = Except.ok (p.segments.getD (p.segments.length - 1) []) := by
    unfold getComponentName getSubcomponentNameAtLevel getPathElement getNumPathLevels
    by_cases hl : p.segments.length = 0
    · rw [if_pos hl]
      simp [List.length_eq_zero.1 hl]
    · rw [if_neg hl]
      have hlt : p.segments.length - 1 < p.segments.length := by omega
      simp [List.getD_eq_getElem?_getD, List.getElem?_eq_getElem hlt]
  refine ⟨h, fun hnil => ?_, fun e => ?_⟩
  · rw [h, hnil]; rfl
  · rw [h]; simp

/-- C18 at concrete inputs: the name of `/a/b/c` is `c`, the name of the root is empty. -/
theorem getComponentName_eq_witness :
    getComponentName { segments := [['a'], ['b'], ['c']], isAbsolute := true } = Except.ok ['c']
      ∧ getComponentName { segments := [], isAbsolute := true } = Except.ok [] :=
  ⟨(getComponentName_eq _).1, (getComponentName_eq _).2.1 rfl⟩

theorem resolveSegments_plain (segs : List (List Char))
    (h : ∀ seg ∈ segs, seg ≠ ['.'] ∧ seg ≠ ['.', '.']) (stack : List (List Char)) :
    resolveSegments stack segs = Except.ok (stack ++ segs) := by
  induction segs generalizing stack with
  | nil => simp [resolveSegments]
  | cons x xs ih =>
    have hx := h x (by simp)
    rw [resolveSegments, if_neg hx.1, if_neg hx.2, ih (fun seg hs => h seg (by simp [hs]))]
    simp

theorem commonPrefixLength_append (xs t : List (List Char)) :
    commonPrefixLength xs (xs ++ t) = xs.length := by
  induction xs with
  | nil => cases t <;> rfl
  | cons x xs ih => simp [commonPrefixLength, ih]

/-- C19: for a normalized absolute path `p` and a path `a` (absolute or not) whose
segments are a prefix of those of `p`, `a.formRelativePath(p)` returns the relative path of the
remaining segments (none when `a = p`), and `a.formAbsolutePath` of it returns `p`. -/
theorem formAbsolutePath_formRelativePath (a p : Path)
    (hp : p.isAbsolute = true) (hn : Normalized p) (hpre : a.segments <+: p.segments) :
    formRelativePath formRelativePathVec a p
        = Except.ok { segments := p.segments.drop a.segments.length, isAbsolute := false }
      ∧ formAbsolutePath formAbsolutePathVec a
          { segments := p.segments.drop a.segments.length, isAbsolute := false } = Except.ok p
      ∧ (a = p → p.segments.drop a.segments.length = []) := by
  obtain ⟨t, ht⟩ := hpre
  have hdrop : p.segments.drop a.segments.length = t := by
    rw [← ht, List.drop_left]
  refine ⟨?_, ?_, ?_⟩
  · unfold formRelativePath formRelativePathVec
    rw [← ht, commonPrefixLength_append]
    simp [Except.map, ofPathVec]
  · unfold formAbsolutePath formAbsolutePathVec
    rw [hdrop]
    simp only [Bool.false_eq_true, if_false]
    rw [ht, resolveSegments_plain _ (fun seg hs => ⟨(hn seg hs).2.2.2.1, (hn seg hs).2.2.2.2⟩)]
    cases p with
    | mk segs abs =>
      simp only at hp
      subst hp
      simp [Except.map, ofPathVec]
  · intro hap
    rw [hap]
    simp

/-- C19 at concrete inputs: from `/a` to `/a/b` and back, and from `/a/b` to itself and
back through the empty relative path. -/
theorem formAbsolutePath_formRelativePath_witness :
    (formRelativePath formRelativePathVec { segments := [['a']], isAbsolute := true }
          { segments := [['a'], ['b']], isAbsolute := true }
        = Except.ok { segments := [['b']], isAbsolute := false }
      ∧ formAbsolutePath formAbsolutePathVec { segments := [['a']], isAbsolute := true }
          { segments := [['b']], isAbsolute := false }
        = Except.ok { segments := [['a'], ['b']], isAbsolute := true })
    ∧ (formRelativePath formRelativePathVec { segments := [['a'], ['b']], isAbsolute := true }
          { segments := [['a'], ['b']], isAbsolute := true }
        = Except.ok { segments := [], isAbsolute := false }
      ∧ formAbsolutePath formAbsolutePathVec { segments := [['a'], ['b']], isAbsolute := true }
          { segments := [], isAbsolute := false }
        = Except.ok { segments := [['a'], ['b']], isAbsolute := true }) :=
  have hplain : ∀ seg ∈ [['a'], ['b']], PlainSegment seg := fun seg h => by
    simp only [List.mem_cons, List.mem_singleton, List.not_mem_nil, or_false] at h
    rcases h with rfl | rfl <;> (unfold PlainSegment; decide)
  ⟨⟨(formAbsolutePath_formRelativePath { segments := [['a']], isAbsolute := true }
        { segments := [['a'], ['b']], isAbsolute := true } rfl hplain ⟨[['b']], rfl⟩).1,
      (formAbsolutePath_formRelativePath { segments := [['a']], isAbsolute := true }
        { segments := [['a'], ['b']], isAbsolute := true } rfl hplain ⟨[['b']], rfl⟩).2.1⟩,
    ⟨(formAbsolutePath_formRelativePath { segments := [['a'], ['b']], isAbsolute := true }
        { segments := [['a'], ['b']], isAbsolute := true } rfl hplain ⟨[], rfl⟩).1,
      (formAbsolutePath_formRelativePath { segments := [['a'], ['b']], isAbsolute := true }
        { segments := [['a'], ['b']], isAbsolute := true } rfl hplain ⟨[], rfl⟩).2.1⟩⟩

/-- C20: whatever segment lists the three helpers compute, a path returned by
`formAbsolutePath` is absolute, one returned by `formRelativePath` is relative, and one
returned by `getParentPath` has the flag of the receiver. -/
theorem derived_path_flag
    (absVec relVec : Path → Path → Except PathError (List (List Char)))
    (parentVec : Path → Except PathError (List (List Char))) (p q r : Path) :
    (formAbsolutePath absVec p q = Except.ok r → r.isAbsolute = true)
      ∧ (formRelativePath relVec p q = Except.ok r → r.isAbsolute = false)
      ∧ (getParentPath parentVec p = Except.ok r → r.isAbsolute = p.isAbsolute) := by
  refine ⟨?_, ?_, ?_⟩
  · unfold formAbsolutePath
    cases absVec p q with
    | error e => simp [Except.map]
    | ok v =>
      simp only [Except.map, Except.ok.injEq]
      rintro rfl
      rfl
  · unfold formRelativePath
    cases relVec p q with
    | error e => simp [Except.map]
    | ok v =>
      simp only [Except.map, Except.ok.injEq]
      rintro rfl
      rfl
  · unfold getParentPath
    cases parentVec p with
    | error e => simp [Except.map]
    | ok v =>
      simp only [Except.map, Except.ok.injEq]
      rintro rfl
      rfl

/-- C20 at concrete inputs, with the helpers modelled from the specification and a
parent helper that drops the last segment: `/a/b` with `../c` gives the absolute `/a/c`,
`/a/b/c` with `/a/b/d` gives the relative `../d`, the parent of the relative `a/b` is
the relative `a`. -/
theorem derived_path_flag_witness :
    (formAbsolutePath formAbsolutePathVec { segments := [['a'], ['b']], isAbsolute := true }
          { segments := [['.', '.'], ['c']], isAbsolute := false }
        = Except.ok { segments := [['a'], ['c']], isAbsolute := true }
      ∧ ({ segments := [['a'], ['c']], isAbsolute := true } : Path).isAbsolute = true)
    ∧ (formRelativePath formRelativePathVec
          { segments := [['a'], ['b'], ['c']], isAbsolute := true }
          { segments := [['a'], ['b'], ['d']], isAbsolute := true }
        = Except.ok { segments := [['.', '.'], ['d']], isAbsolute := false }
      ∧ ({ segments := [['.', '.'], ['d']], isAbsolute := false } : Path).isAbsolute = false)
    ∧ (getParentPath (fun p => Except.ok p.segments.dropLast)
          { segments := [['a'], ['b']], isAbsolute := false }
        = Except.ok { segments := [['a']], isAbsolute := false }
      ∧ ({ segments := [['a']], isAbsolute := false } : Path).isAbsolute = false) :=
  ⟨⟨rfl, (derived_path_flag formAbsolutePathVec formRelativePathVec
      (fun p => Except.ok p.segments.dropLast)
      { segments := [['a'], ['b']], isAbsolute := true }
      { segments := [['.', '.'], ['c']], isAbsolute := false }
      { segments := [['a'], ['c']], isAbsolute := true }).1 rfl⟩,
    ⟨rfl, (derived_path_flag formAbsolutePathVec formRelativePathVec
      (fun p => Except.ok p.segments.dropLast)
      { segments := [['a'], ['b'], ['c']], isAbsolute := true }
      { segments := [['a'], ['b'], ['d']], isAbsolute := true }
      { segments := [['.', '.'], ['d']], isAbsolute := false }).2.1 rfl⟩,
    ⟨rfl, (derived_path_flag formAbsolutePathVec formRelativePathVec
      (fun p => Except.ok p.segments.dropLast)
      { segments := [['a'], ['b']], isAbsolute := false }
      { segments := [], isAbsolute := false }
      { segments := [['a']], isAbsolute := false }).2.2 rfl⟩⟩

/-! ## `normalize` on a leading `..`, and the absolute/relative kind of its result -/

/-- C13: a valid string that begins, after an optional single leading slash, with `..`
followed by the end of the string or by a slash makes `normalize` fail with the
above-root error (built from the unchanged input). -/
theorem normalize_leading_dotdot (lead rest : List Char) (hl : lead = [] ∨ lead = ['/'])
    (hr : rest = [] ∨ ∃ r, rest = '/' :: r)
    (hv : isValid (lead ++ '.' :: '.' :: rest) = true) :
    normalize (lead ++ '.' :: '.' :: rest) = Result.aboveRoot (lead ++ '.' :: '.' :: rest) := by
  have h0 : charAt (lead ++ '.' :: '.' :: rest) lead.length = '.' := by simp
  have h1 : charAt (lead ++ '.' :: '.' :: rest) (lead.length + 1) = '.' := by simp
  have h2 : charAt (lead ++ '.' :: '.' :: rest) (lead.length + 2) = nul
      ∨ charAt (lead ++ '.' :: '.' :: rest) (lead.length + 2) = '/' := by
    rcases hr with rfl | ⟨r, rfl⟩
    · left; simp
    · right; simp
  have hstart : (if charAt (lead ++ '.' :: '.' :: rest) 0 = '/' then 1 else 0)
      = lead.length := by
    rcases hl with rfl | rfl
    · rw [if_neg]
      · rfl
      · simp
    · simp
  unfold normalize
  rw [if_pos hv]
  dsimp only
  rw [hstart, stripLoop, if_neg (by rw [h1]; rintro ⟨-, h, -⟩; revert h; decide)]
  dsimp only
  rw [mainLoop, if_neg (by rw [h0]; exact dot_ne_nul),
    if_neg (by rw [h1]; rintro ⟨-, h | h⟩ <;> revert h <;> decide),
    if_pos ⟨h0, h1, h2⟩, if_pos rfl]

/-- C13 at concrete inputs: `normalize("..")` and `normalize("/..")` fail above the root. -/
theorem normalize_leading_dotdot_witness :
    normalize ("..".toList) = Result.aboveRoot ("..".toList)
      ∧ normalize ("/..".toList) = Result.aboveRoot ("/..".toList) :=
  ⟨normalize_leading_dotdot [] [] (Or.inl rfl) (Or.inl rfl) (by decide),
    normalize_leading_dotdot ['/'] [] (Or.inr rfl) (Or.inl rfl) (by decide)⟩

/-- C15: `normalize` returns the absolute `"/"` for the relative `".//"` and the absolute
`"/c"` for the relative `"a/..//c"`. -/
theorem normalize_relative_to_absolute :
    normalize (".//".toList) = Result.ok ("/".toList)
      ∧ normalize ("a/..//c".toList) = Result.ok ("/c".toList) := by
  decide

/-! ## Canonical strings -/

theorem skipLoop_segment_end (seg : List Char) (hseg : ∀ c ∈ seg, c ≠ '/' ∧ c ≠ nul)
    (pre : List Char) (fuel : Nat) (hf : seg.length < fuel) :
    skipLoop fuel (pre ++ seg) pre.length = some (pre ++ seg, pre.length + seg.length) := by
  induction seg generalizing pre fuel with
  | nil =>
    obtain ⟨f, rfl⟩ : ∃ f, fuel = f + 1 := ⟨fuel - 1, by simp at hf; omega⟩
    rw [skipLoop, if_pos (by
      rw [List.append_nil]; exact charAt_of_length_le _ _ (Nat.le_refl _))]
    simp
  | cons c cs ih =>
    obtain ⟨f, rfl⟩ : ∃ f, fuel = f + 1 := ⟨fuel - 1, by simp at hf; omega⟩
    have hc := hseg c (by simp)
    have h1 : charAt (pre ++ c :: cs) pre.length = c := by simp
    rw [skipLoop, if_neg (by rw [h1]; exact hc.2), if_neg (by rw [h1]; exact hc.1)]
    have := ih (fun d hd => hseg d (by simp [hd])) (pre ++ [c]) f (by simp at hf; omega)
    simp only [List.append_assoc, List.singleton_append, List.length_append,
      List.length_singleton] at this
    rw [this]
    simp only [List.length_cons]
    congr 2
    omega

theorem mainLoop_over_last_segment (start : Nat) (seg : List Char)
    (hseg : ∀ c ∈ seg, c ≠ '/' ∧ c ≠ nul) (hne : seg ≠ []) (hdot : seg ≠ ['.'])
    (hdotdot : seg ≠ ['.', '.']) (pre : List Char) (f : Nat) :
    mainLoop (f + 2) start (pre ++ seg) pre.length = Result.ok (pre ++ seg) := by
  have hskip := skipLoop_segment_end seg hseg pre ((pre ++ seg).length + 1) (by simp; omega)
  have hfin := finish_append_segment pre seg hne (fun c hc => (hseg c hc).1)
  rw [mainLoop]
  obtain ⟨c, t, rfl⟩ : ∃ c t, seg = c :: t := by
    cases seg with
    | nil => exact absurd rfl hne
    | cons c t => exact ⟨c, t, rfl⟩
  have hc := hseg c (by simp)
  have h0 : charAt (pre ++ c :: t) pre.length = c := by simp
  have hA : ¬ (charAt (pre ++ c :: t) pre.length = '.'
      ∧ (charAt (pre ++ c :: t) (pre.length + 1) = nul
        ∨ charAt (pre ++ c :: t) (pre.length + 1) = '/')) := by
    rintro ⟨hc1, h2⟩
    rw [h0] at hc1
    subst hc1
    cases t with
    | nil => exact hdot rfl
    | cons d t' =>
      have hd := hseg d (by simp)
      simp at h2
      tauto
  have hB : ¬ (charAt (pre ++ c :: t) pre.length = '.'
      ∧ charAt (pre ++ c :: t) (pre.length + 1) = '.'
      ∧ (charAt (pre ++ c :: t) (pre.length + 2) = nul
        ∨ charAt (pre ++ c :: t) (pre.length + 2) = '/')) := by
    rintro ⟨hc1, hc2, h3⟩
    rw [h0] at hc1
    subst hc1
    cases t with
    | nil =>
      rw [charAt_append_right, charAt_cons_succ, charAt_nil] at hc2
      revert hc2
      decide
    | cons d t' =>
      rw [charAt_append_right, charAt_cons_succ, charAt_cons_zero] at hc2
      subst hc2
      cases t' with
      | nil => exact hdotdot rfl
      | cons e t'' =>
        have he := hseg e (by simp)
        simp at h3
        tauto
  rw [if_neg (by rw [h0]; exact hc.2), if_neg hA, if_neg hB, hskip]
  dsimp only
  rw [← List.length_append, mainLoop_at_end, hfin]

theorem mainLoop_canonical (lead : List Char) (hlead : lead.length ≤ 1)
    (segs : List (List Char))
    (hsegs : ∀ seg ∈ segs, (seg ≠ [] ∧ ∀ c ∈ seg, c ≠ '/' ∧ c ≠ nul)
      ∧ seg ≠ ['.'] ∧ seg ≠ ['.', '.'])
    (f : Nat) :
    mainLoop (f + segs.length + 1) lead.length (lead ++ List.intercalate ['/'] segs) lead.length
      = Result.ok (lead ++ List.intercalate ['/'] segs) := by
  rcases List.eq_nil_or_concat segs with rfl | ⟨init, last, rfl⟩
  · simp only [List.intercalate, List.intersperse, List.flatten_nil, List.append_nil]
    rw [mainLoop_at_end, finish_of_length_le_one _ hlead]
  · rw [List.concat_eq_append] at hsegs ⊢
    have hlast := hsegs last (by simp)
    have hinit : ∀ seg ∈ init, (seg ≠ [] ∧ ∀ c ∈ seg, c ≠ '/' ∧ c ≠ nul)
        ∧ seg ≠ ['.'] ∧ seg ≠ ['.', '.'] := fun seg h => hsegs seg (by simp [h])
    have hr : charAt last 0 ≠ '/' := by
      cases last with
      | nil => exact absurd rfl hlast.1.1
      | cons c t => simpa using (hlast.1.2 c (by simp)).1
    rw [intercalate_append_singleton, List.length_append, List.length_singleton,
      show f + (init.length + 1) + 1 = (f + 2) + init.length by omega,
      mainLoop_over_segments lead.length init hinit last hr lead (f + 2),
      ← List.length_append, ← List.append_assoc,
      mainLoop_over_last_segment lead.length last hlast.1.2 hlast.1.1 hlast.2.1 hlast.2.2]

theorem plain_nulfree (segs : List (List Char))
    (hplain : ∀ seg ∈ segs, PlainSegment seg ∧ nul ∉ seg) :
    ∀ seg ∈ segs, (seg ≠ [] ∧ ∀ c ∈ seg, c ≠ '/' ∧ c ≠ nul)
      ∧ seg ≠ ['.'] ∧ seg ≠ ['.', '.'] := by
  intro seg hmem
  obtain ⟨⟨h1, h2, -, h4, h5⟩, h6⟩ := hplain seg hmem
  exact ⟨⟨h1, fun c hc => ⟨fun h => h2 (h ▸ hc), fun h => h6 (h ▸ hc)⟩⟩, h4, h5⟩

theorem isValid_of_mem (s : List Char) (segs : List (List Char))
    (hplain : ∀ seg ∈ segs, PlainSegment seg)
    (h : ∀ c ∈ s, c = '/' ∨ c = '.' ∨ ∃ seg ∈ segs, c ∈ seg) : isValid s = true := by
  rw [isValid_iff]
  intro c hc
  rcases h c hc with rfl | rfl | ⟨seg, hseg, hcs⟩
  · decide
  · decide
  · have := (hplain seg hseg).2.2.1 c hcs
    simp only [invalidCharGlyphs, List.mem_cons, List.mem_singleton, List.not_mem_nil,
      or_false, not_or] at this
    exact this

theorem mem_intercalate_slash (segs : List (List Char)) (c : Char)
    (h : c ∈ List.intercalate ['/'] segs) : c = '/' ∨ ∃ seg ∈ segs, c ∈ seg := by
  rcases List.eq_nil_or_concat segs with rfl | ⟨init, last, rfl⟩
  · simp [List.intercalate] at h
  · rw [List.concat_eq_append] at h ⊢
    rw [intercalate_append_singleton, List.mem_append] at h
    rcases h with h | h
    · rcases mem_slashTerminated _ _ h with h | ⟨seg, hseg, hc⟩
      · exact Or.inl h
      · exact Or.inr ⟨seg, by simp [hseg], hc⟩
    · exact Or.inr ⟨last, by simp, h⟩

theorem mem_lead (lead : List Char) (hl : lead = [] ∨ lead = ['/']) (c : Char)
    (h : c ∈ lead) : c = '/' := by
  rcases hl with rfl | rfl
  · simp at h
  · simpa using h

theorem start_eq_length (lead x : List Char) (hl : lead = [] ∨ lead = ['/'])
    (hx : charAt x 0 ≠ '/') :
    (if charAt (lead ++ x) 0 = '/' then 1 else 0) = lead.length := by
  rcases hl with rfl | rfl
  · rw [if_neg (by simpa using hx)]
    rfl
  · simp

theorem charAt_intercalate_ne (segs : List (List Char))
    (hsegs : ∀ seg ∈ segs, seg ≠ [] ∧ ∀ c ∈ seg, c ≠ '/' ∧ c ≠ nul) :
    charAt (List.intercalate ['/'] segs) 0 ≠ '/' := by
  rcases List.eq_nil_or_concat segs with rfl | ⟨init, last, rfl⟩
  · simp only [List.intercalate, List.intersperse, List.flatten_nil, charAt_nil]
    decide
  · rw [List.concat_eq_append] at hsegs ⊢
    rw [intercalate_append_singleton]
    refine charAt_slashTerminated_append_ne init (fun seg h => hsegs seg (by simp [h])) last ?_
    have hlast := hsegs last (by simp)
    cases last with
    | nil => exact absurd rfl hlast.1
    | cons c t => simpa using (hlast.2 c (by simp)).1

theorem length_le_length_intercalate (segs : List (List Char))
    (hsegs : ∀ seg ∈ segs, seg ≠ []) :
    segs.length ≤ (List.intercalate ['/'] segs).length := by
  rcases List.eq_nil_or_concat segs with rfl | ⟨init, last, rfl⟩
  · simp
  · rw [List.concat_eq_append] at hsegs ⊢
    rw [intercalate_append_singleton]
    have h1 := length_le_length_slashTerminated init
    have h2 : 0 < last.length := List.length_pos.2 (hsegs last (by simp))
    simp only [List.length_append, List.length_singleton]
    omega

theorem stripLoop_canonical (fuel : Nat) (lead : List Char) (segs : List (List Char))
    (hsegs : ∀ seg ∈ segs, (seg ≠ [] ∧ ∀ c ∈ seg, c ≠ '/' ∧ c ≠ nul)
      ∧ seg ≠ ['.'] ∧ seg ≠ ['.', '.']) :
    stripLoop (fuel + 1) (lead ++ List.intercalate ['/'] segs) lead.length
      = some (lead ++ List.intercalate ['/'] segs) := by
  cases segs with
  | nil =>
    rw [stripLoop, if_neg]
    rintro ⟨h, -⟩
    simp only [List.intercalate, List.intersperse, List.flatten_nil, List.append_nil] at h
    rw [charAt_of_length_le _ _ (Nat.le_refl _)] at h
    revert h
    decide
  | cons x xs =>
    have hx := hsegs x (by simp)
    obtain ⟨rest, hrest⟩ : ∃ rest, List.intercalate ['/'] (x :: xs) = x ++ rest := by
      cases xs with
      | nil => exact ⟨[], by simp [List.intercalate]⟩
      | cons y ys => exact ⟨'/' :: List.intercalate ['/'] (y :: ys), by
          simp [List.intercalate, List.intersperse]⟩
    rw [hrest]
    exact stripLoop_segment fuel lead x rest hx.1.1 (fun c hc => (hx.1.2 c hc).1) hx.2.1

theorem normalize_lead_canonical (lead : List Char) (hl : lead = [] ∨ lead = ['/'])
    (segs : List (List Char)) (hplain : ∀ seg ∈ segs, PlainSegment seg ∧ nul ∉ seg) :
    normalize (lead ++ List.intercalate ['/'] segs)
      = Result.ok (lead ++ List.intercalate ['/'] segs) := by
  have hsegs := plain_nulfree segs hplain
  have hvalid : isValid (lead ++ List.intercalate ['/'] segs) = true := by
    refine isValid_of_mem _ segs (fun seg h => (hplain seg h).1) (fun c hc => ?_)
    rcases List.mem_append.1 hc with h | h
    · exact Or.inl (mem_lead lead hl c h)
    · rcases mem_intercalate_slash segs c h with h | h
      · exact Or.inl h
      · exact Or.inr (Or.inr h)
  have hlead : lead.length ≤ 1 := by rcases hl with rfl | rfl <;> simp
  obtain ⟨f, hf⟩ : ∃ f, (lead ++ List.intercalate ['/'] segs).length + 1
      = f + segs.length + 1 := by
    have := length_le_length_intercalate segs (fun seg h => (hsegs seg h).1.1)
    refine ⟨(lead ++ List.intercalate ['/'] segs).length - segs.length, ?_⟩
    simp only [List.length_append] at this ⊢
    omega
  unfold normalize
  rw [if_pos hvalid]
  dsimp only
  rw [start_eq_length lead _ hl (charAt_intercalate_ne segs (fun seg h => (hsegs seg h).1)),
    stripLoop_canonical _ lead segs hsegs]
  dsimp only
  rw [hf]
  exact mainLoop_canonical lead hlead segs hsegs f

/-- C14 (amended): a canonical string whose plain segments contain no NUL character (the
empty string, the root `"/"`, or plain segments joined by single slashes after an
optional leading slash) is returned unchanged by `normalize`. -/
theorem normalize_canonical (absolute : Bool) (segs : List (List Char))
    (hplain : ∀ seg ∈ segs, PlainSegment seg ∧ nul ∉ seg) :
    normalize (joinSegments absolute segs) = Result.ok (joinSegments absolute segs) :=
  normalize_lead_canonical _ (by cases absolute <;> simp) segs hplain

/-- C14 at concrete inputs: `"/"`, the empty string and `"/.a/a./..."` are unchanged. -/
theorem normalize_canonical_witness :
    normalize ("/".toList) = Result.ok ("/".toList)
      ∧ normalize ([] : List Char) = Result.ok []
      ∧ normalize ("/.a/a./...".toList) = Result.ok ("/.a/a./...".toList) :=
  ⟨normalize_canonical true [] (fun seg h => by simp at h),
    normalize_canonical false [] (fun seg h => by simp at h),
    normalize_canonical true [".a".toList, "a.".toList, "...".toList] (fun seg h => by
      simp only [List.mem_cons, List.mem_singleton, List.not_mem_nil, or_false] at h
      rcases h with rfl | rfl | rfl <;> exact ⟨by unfold PlainSegment; decide, by decide⟩)⟩

/-- C14 as stated fails on a segment that contains a NUL character: `".\0"` is a plain
segment, so it is a canonical string, yet `normalize` takes its `.` for an element and
returns `"\0"`. -/
theorem normalize_canonical_nul :
    PlainSegment ['.', nul]
      ∧ normalize (joinSegments false [['.', nul]]) = Result.ok [nul]
      ∧ normalize (joinSegments false [['.', nul]]) ≠ Result.ok (joinSegments false [['.', nul]]) :=
  ⟨by unfold PlainSegment; decide, by decide, by decide⟩

/-! ## Leading `./` sequences -/

theorem charAt_dotSlashes_append (k : Nat) (P : List Char) (c : Char)
    (hP : charAt P 0 ≠ c) (hdot : '.' ≠ c) : charAt (dotSlashes k ++ P) 0 ≠ c := by
  cases k with
  | zero => simpa [dotSlashes] using hP
  | succ k => simpa [dotSlashes] using hdot

theorem mem_dotSlashes (k : Nat) (c : Char) (h : c ∈ dotSlashes k) : c = '/' ∨ c = '.' := by
  induction k with
  | zero => simp [dotSlashes] at h
  | succ k ih =>
    simp only [dotSlashes, List.mem_cons] at h
    rcases h with h | h | h
    · exact Or.inr h
    · exact Or.inl h
    · exact ih h

theorem stripLoop_dotSlashes (lead P : List Char) (hP0 : charAt P 0 ≠ nul)
    (hP : ∀ fuel, stripLoop (fuel + 1) (lead ++ P) lead.length = some (lead ++ P))
    (k : Nat) (hsize : (lead ++ (dotSlashes k ++ P)).length < 2 ^ 63) (fuel : Nat)
    (hf : k < fuel) :
    stripLoop fuel (lead ++ (dotSlashes k ++ P)) lead.length = some (lead ++ P) := by
  induction k generalizing fuel with
  | zero =>
    obtain ⟨f, rfl⟩ : ∃ f, fuel = f + 1 := ⟨fuel - 1, by omega⟩
    simpa [dotSlashes] using hP f
  | succ k ih =>
    obtain ⟨f, rfl⟩ : ∃ f, fuel = f + 1 := ⟨fuel - 1, by omega⟩
    have hpath : lead ++ (dotSlashes (k + 1) ++ P)
        = lead ++ (['.', '/'] ++ (dotSlashes k ++ P)) := by simp [dotSlashes]
    rw [hpath] at hsize ⊢
    have h0 : charAt (lead ++ (['.', '/'] ++ (dotSlashes k ++ P))) lead.length = '.' := by simp
    have h1 : charAt (lead ++ (['.', '/'] ++ (dotSlashes k ++ P))) (lead.length + 1) = '/' := by
      simp
    have h2 : charAt (lead ++ (['.', '/'] ++ (dotSlashes k ++ P))) (lead.length + 2) ≠ nul := by
      rw [charAt_append_right]
      simpa using charAt_dotSlashes_append k P nul hP0 dot_ne_nul
    have hs := shift_append lead ['.', '/'] (dotSlashes k ++ P) hsize
    simp only [List.length_cons, List.length_nil] at hs
    rw [stripLoop, if_pos ⟨h0, h1, h2⟩, hs]
    refine ih ?_ f (by omega)
    simp only [List.length_append, List.length_cons, List.length_nil] at hsize ⊢
    omega

/-- C12 (amended): for a non-empty canonical relative path `P` whose plain segments
contain no NUL character, `normalize` of `k` copies of `"./"` followed by `P` returns
`P`, and with a leading slash before the copies it returns `"/"` followed by `P`, the
input fitting a `std::string`. -/
theorem normalize_strips_dotSlashes (absolute : Bool) (k : Nat) (segs : List (List Char))
    (hne : segs ≠ []) (hplain : ∀ seg ∈ segs, PlainSegment seg ∧ nul ∉ seg)
    (hsize : ((if absolute then ['/'] else []) ++ (dotSlashes k ++ joinSegments false segs)).length
      < 2 ^ 63) :
    normalize ((if absolute then ['/'] else []) ++ (dotSlashes k ++ joinSegments false segs))
      = Result.ok (joinSegments absolute segs) := by
  have hsegs := plain_nulfree segs hplain
  have hjoin : joinSegments false segs = List.intercalate ['/'] segs := by simp [joinSegments]
  have hl : (if absolute then ['/'] else ([] : List Char)) = []
      ∨ (if absolute then ['/'] else ([] : List Char)) = ['/'] := by cases absolute <;> simp
  have hres : joinSegments absolute segs
      = (if absolute then ['/'] else []) ++ List.intercalate ['/'] segs := rfl
  rw [hjoin] at hsize ⊢
  rw [hres]
  generalize (if absolute then ['/'] else ([] : List Char)) = lead at hl hsize ⊢
  have hP0 : charAt (List.intercalate ['/'] segs) 0 ≠ nul := by
    obtain ⟨x, xs, rfl⟩ : ∃ x xs, segs = x :: xs := by
      cases segs with
      | nil => exact absurd rfl hne
      | cons x xs => exact ⟨x, xs, rfl⟩
    have hx := hsegs x (by simp)
    obtain ⟨c, t, rfl⟩ : ∃ c t, x = c :: t := by
      cases x with
      | nil => exact absurd rfl hx.1.1
      | cons c t => exact ⟨c, t, rfl⟩
    have hc := (hx.1.2 c (by simp)).2
    cases xs with
    | nil => simpa [List.intercalate] using hc
    | cons y ys => simpa [List.intercalate, List.intersperse] using hc
  have hvalid : isValid (lead ++ (dotSlashes k ++ List.intercalate ['/'] segs)) = true := by
    refine isValid_of_mem _ segs (fun seg h => (hplain seg h).1) (fun c hc => ?_)
    simp only [List.mem_append] at hc
    rcases hc with h | h | h
    · exact Or.inl (mem_lead lead hl c h)
    · rcases mem_dotSlashes k c h with h | h
      · exact Or.inl h
      · exact Or.inr (Or.inl h)
    · rcases mem_intercalate_slash segs c h with h | h
      · exact Or.inl h
      · exact Or.inr (Or.inr h)
  have hlead : lead.length ≤ 1 := by rcases hl with rfl | rfl <;> simp
  have hlen : k < (lead ++ (dotSlashes k ++ List.intercalate ['/'] segs)).length + 1 := by
    have : k ≤ (dotSlashes k).length := by
      clear hsize hvalid
      induction k with
      | zero => simp
      | succ k ih => simp only [dotSlashes, List.length_cons]; omega
    simp only [List.length_append]
    omega
  obtain ⟨f, hf⟩ : ∃ f, (lead ++ List.intercalate ['/'] segs).length + 1
      = f + segs.length + 1 := by
    have := length_le_length_intercalate segs (fun seg h => (hsegs seg h).1.1)
    refine ⟨(lead ++ List.intercalate ['/'] segs).length - segs.length, ?_⟩
    simp only [List.length_append] at this ⊢
    omega
  unfold normalize
  rw [if_pos hvalid]
  dsimp only
  rw [start_eq_length lead _ hl (charAt_dotSlashes_append k _ '/'
      (charAt_intercalate_ne segs (fun seg h => (hsegs seg h).1)) (by decide)),
    stripLoop_dotSlashes lead _ hP0 (fun fuel => stripLoop_canonical fuel lead segs hsegs) k
      hsize _ hlen]
  dsimp only
  rw [hf]
  exact mainLoop_canonical lead hlead segs hsegs f

/-- C12 at concrete inputs: `normalize("./a")` is `"a"` and `normalize("/././a/b")` is
`"/a/b"`. -/
theorem normalize_strips_dotSlashes_witness :
    normalize ("./a".toList) = Result.ok ("a".toList)
      ∧ normalize ("/././a/b".toList) = Result.ok ("/a/b".toList) :=
  ⟨normalize_strips_dotSlashes false 1 [['a']] (by simp)
      (fun seg h => by
        simp only [List.mem_singleton] at h
        subst h
        exact ⟨by unfold PlainSegment; decide, by decide⟩)
      (by decide),
    normalize_strips_dotSlashes true 2 [['a'], ['b']] (by simp)
      (fun seg h => by
        simp only [List.mem_cons, List.mem_singleton, List.not_mem_nil, or_false] at h
        rcases h with rfl | rfl <;> exact ⟨by unfold PlainSegment; decide, by decide⟩)
      (by decide)⟩

/-- C12 as stated fails on a segment that contains a NUL character: `".\0"` is a plain
segment, so it is a non-empty canonical relative path, yet `normalize("./.\0")`
returns `"\0"`. -/
theorem normalize_strips_dotSlashes_nul :
    PlainSegment ['.', nul]
      ∧ normalize (dotSlashes 1 ++ joinSegments false [['.', nul]]) = Result.ok [nul]
      ∧ normalize (dotSlashes 1 ++ joinSegments false [['.', nul]])
          ≠ Result.ok (joinSegments false [['.', nul]]) :=
  ⟨by unfold PlainSegment; decide, by decide, by decide⟩

/-! ## Termination, and what the loops do to the string -/

theorem shift_eq_copy (path : List Char) (k n : Nat) :
    shift path k n = resize (shiftCopy k n (shiftToMove path k n) 0 path)
      (toSizeT ((path.length : Int) - (n : Int))) := rfl

theorem mainLoop_succ_eq (f start : Nat) (path : List Char) (cur : Nat) :
    mainLoop (f + 1) start path cur
      = match mainStep start path cur with
        | Step.done r => r
        | Step.next p c => mainLoop f start p c := by
  rw [mainLoop]
  unfold mainStep
  dsimp only
  split_ifs
  all_goals first
    | rfl
    | (rcases skipLoop (path.length + 1) path cur with _ | ⟨p, c⟩ <;> rfl)

theorem length_shiftCopy (k n t i : Nat) (buf : List Char) :
    (shiftCopy k n t i buf).length = buf.length := by
  induction t generalizing i buf with
  | zero => rfl
  | succ t ih => rw [shiftCopy, ih, List.length_set]

theorem shift_length_le (path : List Char) (k n : Nat) (hn : n ≤ path.length) :
    (shift path k n).length ≤ path.length - n := by
  have hm : toSizeT ((path.length : Int) - (n : Int)) ≤ path.length - n := by
    unfold toSizeT
    omega
  rw [shift_eq_copy]
  unfold resize
  rw [if_pos (by rw [length_shiftCopy]; omega), List.length_take, length_shiftCopy]
  omega

theorem shift_sublist (path : List Char) (k n : Nat) (hkn : k + n ≤ path.length)
    (hsize : path.length < 2 ^ 63) : (shift path k n).Sublist path := by
  rw [shift_eq path k n hkn (by omega)]
  have h : (path.take k ++ path.drop (k + n)).Sublist (path.take k ++ path.drop k) := by
    refine List.Sublist.append_left ?_ _
    rw [← List.drop_drop]
    exact List.drop_sublist _ _
  rwa [List.take_append_drop] at h

theorem lt_length_of_charAt_ne_nul (path : List Char) (i : Nat) (h : charAt path i ≠ nul) :
    i < path.length := by
  by_contra hlt
  exact h (charAt_of_length_le path i (by omega))

theorem rfind_bounds (path : List Char) (start e i : Nat) (h : rfind path start e = some i) :
    start ≤ i ∧ i < e := by
  induction e with
  | zero => simp [rfind] at h
  | succ e ih =>
    rw [rfind] at h
    split at h
    · split at h
      · simp only [Option.some.injEq] at h
        omega
      · have := ih h
        omega
    · simp at h

theorem finish_sublist (path : List Char) : (finish path).Sublist path := by
  unfold finish
  split
  · exact List.dropLast_sublist path
  · exact List.Sublist.refl path

theorem collapseLoop_spec (fuel : Nat) (path : List Char) (cur : Nat)
    (hf : path.length < fuel) :
    ∃ p, collapseLoop fuel path cur = some p ∧ p.length ≤ path.length
      ∧ (path.length < 2 ^ 63 → p.Sublist path) := by
  induction fuel generalizing path with
  | zero => omega
  | succ f ih =>
    rw [collapseLoop]
    by_cases h : charAt path cur = '/'
    · rw [if_pos h]
      have hcur := lt_length_of_charAt_ne_nul path cur (by rw [h]; exact slash_ne_nul)
      have hlen := shift_length_le path cur 1 (by omega)
      obtain ⟨p, hp, hpl, hps⟩ := ih (shift path cur 1) (by omega)
      exact ⟨p, hp, by omega, fun hsize =>
        (hps (by omega)).trans (shift_sublist path cur 1 (by omega) hsize)⟩
    · rw [if_neg h]
      exact ⟨path, rfl, Nat.le_refl _, fun _ => List.Sublist.refl path⟩

theorem skipLoop_spec (fuel : Nat) (path : List Char) (cur : Nat)
    (hf : path.length - cur < fuel) :
    ∃ p c, skipLoop fuel path cur = some (p, c) ∧ cur ≤ c
      ∧ (charAt path cur ≠ nul → cur < c) ∧ p.length ≤ path.length
      ∧ (path.length < 2 ^ 63 → p.Sublist path) := by
  induction fuel generalizing cur with
  | zero => omega
  | succ f ih =>
    rw [skipLoop]
    by_cases h0 : charAt path cur = nul
    · rw [if_pos h0]
      exact ⟨path, cur, rfl, Nat.le_refl _, fun h => absurd h0 h, Nat.le_refl _,
        fun _ => List.Sublist.refl path⟩
    · rw [if_neg h0]
      have hcur := lt_length_of_charAt_ne_nul path cur h0
      by_cases h1 : charAt path cur = '/'
      · rw [if_pos h1]
        obtain ⟨p, hp, hpl, hps⟩ := collapseLoop_spec (path.length + 1) path (cur + 1)
          (by omega)
        exact ⟨p, cur + 1, by rw [hp]; rfl, by omega, fun _ => by omega, hpl, hps⟩
      · rw [if_neg h1]
        obtain ⟨p, c, hpc, hc, -, hpl, hps⟩ := ih (cur + 1) (by omega)
        exact ⟨p, c, hpc, by omega, fun _ => by omega, hpl, hps⟩

theorem stripLoop_spec (fuel : Nat) (path : List Char) (start : Nat)
    (hf : path.length < fuel) :
    ∃ p, stripLoop fuel path start = some p ∧ p.length ≤ path.length
      ∧ (path.length < 2 ^ 63 → p.Sublist path) := by
  induction fuel generalizing path with
  | zero => omega
  | succ f ih =>
    rw [stripLoop]
    by_cases h : charAt path start = '.' ∧ charAt path (start + 1) = '/'
        ∧ charAt path (start + 2) ≠ nul
    · rw [if_pos h]
      have hcur := lt_length_of_charAt_ne_nul path (start + 2) h.2.2
      have hlen := shift_length_le path start 2 (by omega)
      obtain ⟨p, hp, hpl, hps⟩ := ih (shift path start 2) (by omega)
      exact ⟨p, hp, by omega, fun hsize =>
        (hps (by omega)).trans (shift_sublist path start 2 (by omega) hsize)⟩
    · rw [if_neg h]
      exact ⟨path, rfl, Nat.le_refl _, fun _ => List.Sublist.refl path⟩

theorem shift_step (start : Nat) (path : List Char) (cur k n : Nat)
    (hkn : k + n ≤ path.length) (hn : 1 ≤ n) (hk : start ≤ k) (hcur : cur < k + n) :
    start ≤ k ∧ (shift path k n).length ≤ path.length
      ∧ (shift path k n).length - k < path.length - cur
      ∧ ((shift path k n).length < path.length ∨ cur < k)
      ∧ (path.length < 2 ^ 63 → (shift path k n).Sublist path) := by
  have hlen := shift_length_le path k n (by omega)
  exact ⟨hk, by omega, by omega, Or.inl (by omega),
    fun hsize => shift_sublist path k n hkn hsize⟩

theorem mainStep_spec (start : Nat) (path : List Char) (cur : Nat) (h : start ≤ cur) :
    (∀ r, mainStep start path cur = Step.done r →
        r ≠ Result.fuelExhausted ∧ ∀ q, r = Result.ok q → q = finish path)
      ∧ (∀ p c, mainStep start path cur = Step.next p c →
        start ≤ c ∧ p.length ≤ path.length ∧ p.length - c < path.length - cur
          ∧ (p.length < path.length ∨ cur < c)
          ∧ (path.length < 2 ^ 63 → p.Sublist path)) := by
  unfold mainStep
  dsimp only
  by_cases h0 : charAt path cur = nul
  · rw [if_pos h0]
    refine ⟨fun r hr => ?_, fun p c hpc => by simp at hpc⟩
    simp only [Step.done.injEq] at hr
    subst hr
    exact ⟨by simp, fun q hq => by simp only [Result.ok.injEq] at hq; exact hq.symm⟩
  · rw [if_neg h0]
    have hcur := lt_length_of_charAt_ne_nul path cur h0
    by_cases h1 : charAt path cur = '.'
        ∧ (charAt path (cur + 1) = nul ∨ charAt path (cur + 1) = '/')
    · rw [if_pos h1]
      have hn : 1 ≤ (if charAt path (cur + 1) = '/' then 2 else 1)
          ∧ cur + (if charAt path (cur + 1) = '/' then 2 else 1) ≤ path.length := by
        by_cases h2 : charAt path (cur + 1) = '/'
        · have := lt_length_of_charAt_ne_nul path (cur + 1) (by rw [h2]; exact slash_ne_nul)
          rw [if_pos h2]
          omega
        · rw [if_neg h2]
          omega
      generalize (if charAt path (cur + 1) = '/' then 2 else 1) = n at hn
      by_cases h3 : cur = start
      · rw [if_neg (by simpa using h3)]
        refine ⟨fun r hr => by simp at hr, fun p c hpc => ?_⟩
        simp only [Step.next.injEq] at hpc
        obtain ⟨rfl, rfl⟩ := hpc
        exact shift_step start path cur cur n (by omega) (by omega) h (by omega)
      · rw [if_pos h3]
        refine ⟨fun r hr => by simp at hr, fun p c hpc => ?_⟩
        simp only [Step.next.injEq] at hpc
        obtain ⟨rfl, rfl⟩ := hpc
        exact shift_step start path cur (cur - 1) (n + 1) (by omega) (by omega) (by omega)
          (by omega)
    · rw [if_neg h1]
      by_cases h2 : charAt path cur = '.' ∧ charAt path (cur + 1) = '.'
          ∧ (charAt path (cur + 2) = nul ∨ charAt path (cur + 2) = '/')
      · rw [if_pos h2]
        by_cases h3 : cur = start
        · rw [if_pos h3]
          refine ⟨fun r hr => ?_, fun p c hpc => by simp at hpc⟩
          simp only [Step.done.injEq] at hr
          subst hr
          exact ⟨by simp, fun q hq => by simp at hq⟩
        · rw [if_neg h3]
          have hcur1 := lt_length_of_charAt_ne_nul path (cur + 1) (by
            rw [h2.2.1]; exact dot_ne_nul)
          have hn : 3 ≤ (if charAt path (cur + 2) = '/' then 4 else 3)
              ∧ cur - 1 + (if charAt path (cur + 2) = '/' then 4 else 3) ≤ path.length := by
            by_cases h4 : charAt path (cur + 2) = '/'
            · have := lt_length_of_charAt_ne_nul path (cur + 2) (by
                rw [h4]; exact slash_ne_nul)
              rw [if_pos h4]
              omega
            · rw [if_neg h4]
              omega
          generalize (if charAt path (cur + 2) = '/' then 4 else 3) = n at hn
          have hps : start ≤ (rfind path start (cur - 1)).getD start
              ∧ (rfind path start (cur - 1)).getD start ≤ cur - 1 := by
            cases hr : rfind path start (cur - 1) with
            | none => simp only [Option.getD_none]; omega
            | some i =>
              have := rfind_bounds path start (cur - 1) i hr
              simp only [Option.getD_some]
              omega
          generalize (rfind path start (cur - 1)).getD start = ps at hps
          refine ⟨fun r hr => by simp at hr, fun p c hpc => ?_⟩
          simp only [Step.next.injEq] at hpc
          obtain ⟨rfl, rfl⟩ := hpc
          have e : cur - 1 - (cur - 1 - ps) = ps := by omega
          rw [e]
          exact shift_step start path cur ps (n + (cur - 1 - ps)) (by omega) (by omega)
            (by omega) (by omega)
      · rw [if_neg h2]
        obtain ⟨p', c', hpc', hc', hlt, hpl, hps⟩ := skipLoop_spec (path.length + 1) path cur
          (by omega)
        rw [hpc']
        refine ⟨fun r hr => by simp at hr, fun p c hpc => ?_⟩
        simp only [Step.next.injEq] at hpc
        obtain ⟨rfl, rfl⟩ := hpc
        have := hlt h0
        exact ⟨by omega, hpl, by omega, Or.inr this, hps⟩

theorem mainLoop_ne_fuelExhausted (fuel start : Nat) (path : List Char) (cur : Nat)
    (h : start ≤ cur) (hf : path.length - cur < fuel) :
    mainLoop fuel start path cur ≠ Result.fuelExhausted := by
  induction fuel generalizing path cur with
  | zero => omega
  | succ f ih =>
    rw [mainLoop_succ_eq]
    obtain ⟨hdone, hnext⟩ := mainStep_spec start path cur h
    cases hs : mainStep start path cur with
    | done r => exact (hdone r hs).1
    | next p c =>
      obtain ⟨hc, -, hm, -, -⟩ := hnext p c hs
      exact ih p c hc (by omega)

theorem mainLoop_sublist (fuel start : Nat) (path : List Char) (cur : Nat) (r : List Char)
    (h : start ≤ cur) (hsize : path.length < 2 ^ 63)
    (hr : mainLoop fuel start path cur = Result.ok r) : r.Sublist path := by
  induction fuel generalizing path cur with
  | zero => simp [mainLoop] at hr
  | succ f ih =>
    rw [mainLoop_succ_eq] at hr
    obtain ⟨hdone, hnext⟩ := mainStep_spec start path cur h
    cases hs : mainStep start path cur with
    | done r' =>
      rw [hs] at hr
      rw [(hdone r' hs).2 r hr]
      exact finish_sublist path
    | next p c =>
      rw [hs] at hr
      obtain ⟨hc, hpl, -, -, hps⟩ := hnext p c hs
      exact (ih p c hc (by omega) hr).trans (hps hsize)

/-- C22: when `normalize` returns a string for an input that fits a `std::string`, the
result is a subsequence of the input (it is the input with characters deleted), so it
is not longer than the input. -/
theorem normalize_sublist (s r : List Char) (hsize : s.length < 2 ^ 63)
    (h : normalize s = Result.ok r) : r.Sublist s ∧ r.length ≤ s.length := by
  have hsub : r.Sublist s := by
    unfold normalize at h
    split at h
    · dsimp only at h
      obtain ⟨p, hp, hpl, hps⟩ := stripLoop_spec (s.length + 1) s
        (if charAt s 0 = '/' then 1 else 0) (by omega)
      rw [hp] at h
      exact (mainLoop_sublist _ _ _ _ r (Nat.le_refl _) (by omega) h).trans (hps hsize)
    · simp at h
  exact ⟨hsub, hsub.length_le⟩

/-- C22 at a concrete input: `"/c"`, the result for `"/a/b/../../c"`, is a subsequence
of it. -/
theorem normalize_sublist_witness :
    ("/c".toList).Sublist ("/a/b/../../c".toList)
      ∧ ("/c".toList).length ≤ ("/a/b/../../c".toList).length :=
  normalize_sublist ("/a/b/../../c".toList) ("/c".toList) (by decide) (by decide)

/-- The loop budget of the embedding, `length + 1` iterations for each loop, never runs
out: `fuelExhausted` is not an outcome of `normalize`. -/
theorem normalize_ne_fuelExhausted (s : List Char) :
    normalize s ≠ Result.fuelExhausted := by
  unfold normalize
  split
  · dsimp only
    obtain ⟨p, hp, -, -⟩ := stripLoop_spec (s.length + 1) s
      (if charAt s 0 = '/' then 1 else 0) (by omega)
    rw [hp]
    exact mainLoop_ne_fuelExhausted _ _ _ _ (Nat.le_refl _) (by omega)
  · simp

/-! ## The copy loop of `shift` and the storage of the string -/

theorem shiftToMove_eq (path : List Char) (k n : Nat) (hkn : k + n ≤ path.length)
    (hsize : path.length + k < 2 ^ 64) : shiftToMove path k n = path.length + k - n := by
  unfold shiftToMove shiftLen
  rw [shift_len_eq _ _ hsize]
  unfold toSizeT
  omega

theorem shiftWritesInside_iff (path : List Char) (k n : Nat) (hkn : k + n ≤ path.length)
    (hsize : path.length + k < 2 ^ 64) :
    shiftWritesInside path k n = true ↔ 2 * k ≤ n + 1 := by
  unfold shiftWritesInside shiftWriteEnd
  rw [shiftToMove_eq path k n hkn hsize, decide_eq_true_iff]
  omega

/-- C23: on `"ab/."` (length 4) `normalize` reaches, after one iteration that skips
`"ab/"`, the call `shift(s, 2)` with `s` at offset 2.  There `k + n <= L` holds, but the
computed `len` is `L + k = 6`, not `L - k = 2`, and `to_move` is 4: the copy loop reads
up to offset 7 and writes up to offset 5, past the terminator at offset 4.  For every
call the computed `len` is `L + k`. -/
theorem shift_len_exceeds_string :
    stripLoop 5 ("ab/.".toList) 0 = some ("ab/.".toList)
      ∧ mainStep 0 ("ab/.".toList) 0 = Step.next ("ab/.".toList) 3
      ∧ mainStep 0 ("ab/.".toList) 3 = Step.next (shift ("ab/.".toList) 2 2) 2
      ∧ 2 + 2 ≤ ("ab/.".toList).length
      ∧ shiftLen ("ab/.".toList) 2 = 6
      ∧ shiftLen ("ab/.".toList) 2 ≠ ("ab/.".toList).length - 2
      ∧ shiftToMove ("ab/.".toList) 2 2 = 4
      ∧ ("ab/.".toList).length < 2 + (shiftToMove ("ab/.".toList) 2 2 - 1) + 2
      ∧ ("ab/.".toList).length < 2 + (shiftToMove ("ab/.".toList) 2 2 - 1)
      ∧ normalize ("ab/.".toList) = Result.ok ("ab".toList)
      ∧ ∀ (path : List Char) (k : Nat), path.length + k < 2 ^ 64 →
          shiftLen path k = path.length + k := by
  refine ⟨by decide, by decide, by decide, by decide, by decide, by decide, by decide,
    by decide, by decide, by decide, fun path k h => shift_len_eq path.length k h⟩

/-- C10: on `longTrailingDotdot`, the canonical path `aaaaaaaaaaaaaaaa/b/c` followed by
`"/.."` (23 characters), `normalize` skips the three segments and reaches the call
`shift(s, 5)` with `s` at offset 18, the slash before `c`.  The characters of the string
after the call are those of the parent `aaaaaaaaaaaaaaaa/b`, but the computed `len` is
41 and `to_move` is 36: the copy loop writes the offsets 18 to 53 and reads up to offset
58, while the string owns the offsets 0 to 23. -/
theorem trailing_dotdot_shift_overruns :
    longTrailingDotdot = joinSegments false ["aaaaaaaaaaaaaaaa".toList, ['b'], ['c']]
        ++ ['/', '.', '.']
      ∧ stripLoop 24 longTrailingDotdot 0 = some longTrailingDotdot
      ∧ mainStep 0 longTrailingDotdot 0 = Step.next longTrailingDotdot 17
      ∧ mainStep 0 longTrailingDotdot 17 = Step.next longTrailingDotdot 19
      ∧ mainStep 0 longTrailingDotdot 19 = Step.next longTrailingDotdot 21
      ∧ mainStep 0 longTrailingDotdot 21 = Step.next (shift longTrailingDotdot 18 5) 18
      ∧ shift longTrailingDotdot 18 5 = joinSegments false ["aaaaaaaaaaaaaaaa".toList, ['b']]
      ∧ longTrailingDotdot.length = 23
      ∧ shiftLen longTrailingDotdot 18 = 41
      ∧ shiftToMove longTrailingDotdot 18 5 = 36
      ∧ shiftWriteEnd longTrailingDotdot 18 5 = 54
      ∧ shiftReadEnd longTrailingDotdot 18 5 = 59
      ∧ shiftWritesInside longTrailingDotdot 18 5 = false := by
  decide!

/-- C11: on `longDoubleSlash`, the segments `aaaaaaaaaaaaaaaa` and `b` separated by two
slashes (19 characters), the first iteration of the main loop skips the first segment
and its slash, finds the second slash at offset 17 and calls `shift(s, 1)` there.  The
characters of the string after the call are `aaaaaaaaaaaaaaaa/b`, but the computed `len`
is 36 and `to_move` is 35: the copy loop writes the offsets 17 to 51 and reads up to
offset 52, while the string owns the offsets 0 to 19. -/
theorem double_slash_shift_overruns :
    stripLoop 20 longDoubleSlash 0 = some longDoubleSlash
      ∧ charAt longDoubleSlash 16 = '/' ∧ charAt longDoubleSlash 17 = '/'
      ∧ skipLoop 20 longDoubleSlash 0
          = (collapseLoop 20 longDoubleSlash 17).map (fun p => (p, 17))
      ∧ collapseLoop 20 longDoubleSlash 17 = collapseLoop 19 (shift longDoubleSlash 17 1) 17
      ∧ mainStep 0 longDoubleSlash 0 = Step.next (shift longDoubleSlash 17 1) 17
      ∧ shift longDoubleSlash 17 1 = joinSegments false ["aaaaaaaaaaaaaaaa".toList, ['b']]
      ∧ longDoubleSlash.length = 19
      ∧ shiftLen longDoubleSlash 17 = 36
      ∧ shiftToMove longDoubleSlash 17 1 = 35
      ∧ shiftWriteEnd longDoubleSlash 17 1 = 52
      ∧ shiftReadEnd longDoubleSlash 17 1 = 53
      ∧ shiftWritesInside longDoubleSlash 17 1 = false := by
  decide!

/-- C21: on `longAscent`, a segment of 24 characters followed by `"//../.."` (31
characters), the first iteration of the main loop calls `shift(s, 1)` with `s` at offset
25, the second slash.  The computed `len` is 56 and `to_move` is 55: the copy loop writes
the offsets 25 to 79 and reads up to offset 80, while the string owns the offsets 0 to
31.  The next iteration removes the segment with the first `..`, and the one after it
reaches the `throw` of the above-root error with the path `".."`. -/
theorem ascent_shift_overruns :
    stripLoop 32 longAscent 0 = some longAscent
      ∧ charAt longAscent 24 = '/' ∧ charAt longAscent 25 = '/'
      ∧ mainStep 0 longAscent 0 = Step.next (shift longAscent 25 1) 25
      ∧ longAscent.length = 31
      ∧ shiftLen longAscent 25 = 56
      ∧ shiftToMove longAscent 25 1 = 55
      ∧ shiftWriteEnd longAscent 25 1 = 80
      ∧ shiftReadEnd longAscent 25 1 = 81
      ∧ shiftWritesInside longAscent 25 1 = false
      ∧ mainStep 0 (shift longAscent 25 1) 25 = Step.next ['.', '.'] 0
      ∧ mainStep 0 ['.', '.'] 0 = Step.done (Result.aboveRoot ['.', '.']) := by
  decide!

end ComponentPath
